import Mathlib

/-!
Verification of the byecycle import-cycle analyzer.

This file embeds the core of the program (`src/byecycle/misc.py` and
`src/byecycle/graph.py`) as executable Lean definitions and proves the
specification claims about them.  Python dictionaries are modelled as
insertion-ordered association lists, Python sets of tags as `Finset`s,
machine-level iteration order of Python sets as an explicit oracle
parameter, and exceptions (`KeyError` / `IndexError`) as `Option`.
-/

namespace Byecycle

/-! ## `misc.py`: kinds, severities, `cycle_severity` -/

/-- `ImportKind`: `Literal["dynamic", "conditional", "typing", "parent", "vanilla"]`. -/
inductive ImportKind where
  | dynamic
  | conditional
  | typing
  | parent
  | vanilla
deriving DecidableEq, Repr

/-- `EdgeKind`: `Literal["good", "bad", "complicated", "skip"]`. -/
inductive EdgeKind where
  | good
  | bad
  | complicated
  | skip
deriving DecidableEq, Repr

/-- `edge_order = {"bad": 0, "complicated": 1, "good": 2, "skip": 3}`. -/
def edge_order : EdgeKind → Nat
  | .bad => 0
  | .complicated => 1
  | .good => 2
  | .skip => 3

/-- `_default_cycle_severity` from `misc.py`. -/
def _default_cycle_severity : ImportKind → EdgeKind
  | .dynamic => .complicated
  | .conditional => .complicated
  | .typing => .skip
  | .parent => .complicated
  | .vanilla => .bad

/-- `severity_map = {**_default_cycle_severity, **kwargs}`: a caller-supplied
keyword (`some v`) replaces the default for that key, otherwise the default
stands. -/
def severityMap (kwargs : ImportKind → Option EdgeKind) (k : ImportKind) : EdgeKind :=
  (kwargs k).getD (_default_cycle_severity k)

/-- `sorted((severity_map[t] for t in tags), key=edge_order.get)[0]`: the head of
the list sorted by `edge_order` is an element of the set with minimal
`edge_order` (severity ranks `bad < complicated < good < skip`); indexing an
empty list raises `IndexError`, modelled as `none`. -/
def minSeverity (s : Finset EdgeKind) : Option EdgeKind :=
  if EdgeKind.bad ∈ s then some .bad
  else if EdgeKind.complicated ∈ s then some .complicated
  else if EdgeKind.good ∈ s then some .good
  else if EdgeKind.skip ∈ s then some .skip
  else none

/-- The local `tags` of `cycle_severity` after the `"vanilla"` removal:
`tags = tags_a | tags_b`, and `"vanilla"` is removed from it when it is in the
union but not in both operands. -/
def survivors (tags_a tags_b : Finset ImportKind) : Finset ImportKind :=
  let tags := tags_a ∪ tags_b
  if ImportKind.vanilla ∈ tags ∧ (ImportKind.vanilla ∉ tags_a ∨ ImportKind.vanilla ∉ tags_b)
  then tags.erase ImportKind.vanilla
  else tags

/-- `cycle_severity(tags_a, tags_b, **kwargs)` from `misc.py`. -/
def cycle_severity (tags_a tags_b : Finset ImportKind)
    (kwargs : ImportKind → Option EdgeKind) : Option EdgeKind :=
  minSeverity ((survivors tags_a tags_b).image (severityMap kwargs))

/-- On a nonempty set, `minSeverity` returns a member of minimal `edge_order`. -/
theorem minSeverity_spec (s : Finset EdgeKind) (h : s.Nonempty) :
    ∃ e, minSeverity s = some e ∧ e ∈ s ∧ ∀ x ∈ s, edge_order e ≤ edge_order x := by
  by_cases hb : EdgeKind.bad ∈ s
  · refine ⟨.bad, ?_, hb, ?_⟩
    · simp [minSeverity, hb]
    · intro x _; exact Nat.zero_le _
  · by_cases hc : EdgeKind.complicated ∈ s
    · refine ⟨.complicated, ?_, hc, ?_⟩
      · simp [minSeverity, hb, hc]
      · intro x hx; cases x <;> simp [edge_order] <;> exact absurd hx hb
    · by_cases hg : EdgeKind.good ∈ s
      · refine ⟨.good, ?_, hg, ?_⟩
        · simp [minSeverity, hb, hc, hg]
        · intro x hx; cases x <;> simp [edge_order] <;> first
            | exact absurd hx hb | exact absurd hx hc
      · by_cases hs : EdgeKind.skip ∈ s
        · refine ⟨.skip, ?_, hs, ?_⟩
          · simp [minSeverity, hb, hc, hg, hs]
          · intro x hx; cases x <;> first
              | exact absurd hx hb | exact absurd hx hc | exact absurd hx hg
              | simp [edge_order]
        · obtain ⟨x, hx⟩ := h
          cases x <;> first
            | exact absurd hx hb | exact absurd hx hc | exact absurd hx hg
            | exact absurd hx hs

/-- C1: `vanilla` contributes to a pair's severity only if it is present on both
sides.  When it is missing from either side, `cycle_severity` scores the union
with `vanilla` erased; when it is on both sides the union is scored unchanged;
and the concrete pair `{vanilla}` versus `{typing}` scores `skip` under the
default severity map. -/
theorem cycle_severity_vanilla_two_sided
    (a b : Finset ImportKind) (kwargs : ImportKind → Option EdgeKind)
    (h : ImportKind.vanilla ∉ a ∨ ImportKind.vanilla ∉ b) :
    cycle_severity a b kwargs
      = minSeverity (((a ∪ b).erase ImportKind.vanilla).image (severityMap kwargs))
    ∧ (∀ a' b' : Finset ImportKind,
        ImportKind.vanilla ∈ a' → ImportKind.vanilla ∈ b' → survivors a' b' = a' ∪ b')
    ∧ cycle_severity {ImportKind.vanilla} {ImportKind.typing} (fun _ => none)
        = some EdgeKind.skip := by
  refine ⟨?_, ?_, by decide⟩
  · unfold cycle_severity survivors
    by_cases hv : ImportKind.vanilla ∈ a ∪ b
    · simp [hv, h]
    · simp only [hv, false_and, if_false]
      rw [Finset.erase_eq_of_not_mem hv]
  · intro a' b' ha hb
    unfold survivors
    simp [ha, hb]

/-- Witness for `cycle_severity_vanilla_two_sided` at a concrete input. -/
theorem cycle_severity_vanilla_two_sided_witness :
    (ImportKind.vanilla ∉ ({ImportKind.vanilla} : Finset ImportKind)
      ∨ ImportKind.vanilla ∉ ({ImportKind.typing} : Finset ImportKind))
    ∧ cycle_severity {ImportKind.vanilla} {ImportKind.typing} (fun _ => none)
        = minSeverity (((({ImportKind.vanilla} : Finset ImportKind)
            ∪ {ImportKind.typing}).erase
            ImportKind.vanilla).image (severityMap (fun _ => none))) :=
  ⟨Or.inr (by decide),
    (cycle_severity_vanilla_two_sided {ImportKind.vanilla} {ImportKind.typing}
      (fun _ => none) (Or.inr (by decide))).1⟩

/-- C2: on a pair with a nonempty surviving tag set, `cycle_severity` returns
the most severe (minimal in `edge_order`, where `bad < complicated < good <
skip`) value obtained by mapping each surviving tag through the effective
severity map; the effective map applies a caller-supplied override where one
exists and the stated defaults otherwise. -/
theorem cycle_severity_most_severe
    (a b : Finset ImportKind) (kwargs : ImportKind → Option EdgeKind)
    (h : (survivors a b).Nonempty) :
    (∃ e, cycle_severity a b kwargs = some e
      ∧ e ∈ (survivors a b).image (severityMap kwargs)
      ∧ ∀ x ∈ (survivors a b).image (severityMap kwargs), edge_order e ≤ edge_order x)
    ∧ (∀ k v, kwargs k = some v → severityMap kwargs k = v)
    ∧ (∀ k, kwargs k = none → severityMap kwargs k = _default_cycle_severity k)
    ∧ _default_cycle_severity .dynamic = .complicated
    ∧ _default_cycle_severity .conditional = .complicated
    ∧ _default_cycle_severity .typing = .skip
    ∧ _default_cycle_severity .parent = .complicated
    ∧ _default_cycle_severity .vanilla = .bad := by
  refine ⟨minSeverity_spec _ (h.image _), ?_, ?_, rfl, rfl, rfl, rfl, rfl⟩
  · intro k v hk; simp [severityMap, hk]
  · intro k hk; simp [severityMap, hk]

/-- Witness for `cycle_severity_most_severe` at a concrete input. -/
theorem cycle_severity_most_severe_witness :
    (survivors {ImportKind.vanilla} {ImportKind.typing}).Nonempty
    ∧ ∃ e, cycle_severity {ImportKind.vanilla} {ImportKind.typing} (fun _ => none) = some e :=
  ⟨⟨ImportKind.typing, by decide⟩,
    match (cycle_severity_most_severe {ImportKind.vanilla} {ImportKind.typing}
        (fun _ => none) ⟨ImportKind.typing, by decide⟩).1 with
    | ⟨e, he, _, _⟩ => ⟨e, he⟩⟩

/-- C10: severity scoring is total on nonempty inputs: when both tag sets are
nonempty the surviving union is nonempty, so `cycle_severity` never indexes an
empty sequence and always returns a severity. -/
theorem cycle_severity_total
    (a b : Finset ImportKind) (kwargs : ImportKind → Option EdgeKind)
    (ha : a.Nonempty) (hb : b.Nonempty) :
    (survivors a b).Nonempty ∧ ∃ e, cycle_severity a b kwargs = some e := by
  have hsurv : (survivors a b).Nonempty := by
    unfold survivors
    by_cases hcond : ImportKind.vanilla ∈ a ∪ b
        ∧ (ImportKind.vanilla ∉ a ∨ ImportKind.vanilla ∉ b)
    · simp only [hcond, if_true]
      rcases hcond.2 with hna | hnb
      · obtain ⟨x, hx⟩ := ha
        exact ⟨x, Finset.mem_erase.mpr ⟨fun hxv => hna (hxv ▸ hx),
          Finset.mem_union_left _ hx⟩⟩
      · obtain ⟨x, hx⟩ := hb
        exact ⟨x, Finset.mem_erase.mpr ⟨fun hxv => hnb (hxv ▸ hx),
          Finset.mem_union_right _ hx⟩⟩
    · simp only [hcond, if_false]
      obtain ⟨x, hx⟩ := ha
      exact ⟨x, Finset.mem_union_left _ hx⟩
  obtain ⟨e, he, _, _⟩ := minSeverity_spec _ (hsurv.image (severityMap kwargs))
  exact ⟨hsurv, e, he⟩

/-- Witness for `cycle_severity_total` at a concrete input. -/
theorem cycle_severity_total_witness :
    (survivors {ImportKind.vanilla} {ImportKind.vanilla}).Nonempty
    ∧ ∃ e, cycle_severity {ImportKind.vanilla} {ImportKind.vanilla} (fun _ => none) = some e :=
  cycle_severity_total {ImportKind.vanilla} {ImportKind.vanilla} (fun _ => none)
    ⟨ImportKind.vanilla, by decide⟩ ⟨ImportKind.vanilla, by decide⟩

/-! ## `misc.py`: `path_to_module_name`

Python strings are modelled as `List Char`; the string methods used by
`path_to_module_name` are defined below with Python's semantics. -/

/-- `str.startswith(pre)` on character lists. -/
def isPrefixB : List Char → List Char → Bool
  | [], _ => true
  | _ :: _, [] => false
  | a :: ps, b :: bs => a = b && isPrefixB ps bs

/-- `str.endswith(suf)` on character lists. -/
def isSuffixB (suf s : List Char) : Bool :=
  isPrefixB suf.reverse s.reverse

/-- `str.removeprefix(pre)`. -/
def removeprefix (pre s : List Char) : List Char :=
  if isPrefixB pre s then s.drop pre.length else s

/-- `str.removesuffix(suf)`. -/
def removesuffix (suf s : List Char) : List Char :=
  if isSuffixB suf s then s.take (s.length - suf.length) else s

/-- `str.strip(c)` for a one-character argument: removes every leading and
trailing occurrence of `c`. -/
def stripChar (c : Char) (s : List Char) : List Char :=
  ((s.dropWhile (· == c)).reverse.dropWhile (· == c)).reverse

/-- `str.replace(a, b)` for one-character arguments. -/
def replaceChar (a b : Char) (s : List Char) : List Char :=
  s.map fun x => if x = a then b else x

/-- The characters of `".py"`. -/
def pyExt : List Char := ['.', 'p', 'y']

/-- The characters of `"__init__"`. -/
def initStr : List Char := ['_', '_', 'i', 'n', 'i', 't', '_', '_']

/-- `path_to_module_name(path, base, name)` from `misc.py`:

`path.removeprefix(base[:-len(name)]).removesuffix(".py").removesuffix("__init__").strip("/").replace("/", ".")`

`base[:-len(name)]` is all of `base` but its last `len(name)` characters; for
an empty `name` Python's `base[:-0]` is `base[:0]`, the empty string. -/
def path_to_module_name (path base name : List Char) : List Char :=
  let pre := if name.length = 0 then [] else base.take (base.length - name.length)
  replaceChar '/' '.'
    (stripChar '/'
      (removesuffix initStr
        (removesuffix pyExt
          ( removeprefix pre path))))

theorem isPrefixB_append_self (pre t : List Char) : isPrefixB pre (pre ++ t) = true := by
  induction pre with
  | nil => rfl
  | cons a ps ih => simp [isPrefixB, ih]

theorem removeprefix_append (pre t : List Char) : removeprefix pre (pre ++ t) = t := by
  rw [ removeprefix, if_pos (isPrefixB_append_self pre t), List.drop_left]

theorem isSuffixB_append_self (suf t : List Char) : isSuffixB suf (t ++ suf) = true := by
  rw [isSuffixB, List.reverse_append]
  exact isPrefixB_append_self _ _

theorem removesuffix_append (suf t : List Char) : removesuffix suf (t ++ suf) = t := by
  rw [removesuffix, if_pos (isSuffixB_append_self suf t)]
  have hlen : (t ++ suf).length - suf.length = t.length := by
    simp [List.length_append]
  rw [hlen, List.take_left]

theorem removesuffix_of_not (suf s : List Char) (h : isSuffixB suf s = false) :
    removesuffix suf s = s := by
  rw [removesuffix, h]
  simp

/-- If `p` contains no `'/'` and is a prefix of `s ++ '/' :: y`, it is already a
prefix of `s`. -/
theorem isPrefixB_of_prefix_slash (p : List Char) :
    ∀ s y, isPrefixB p (s ++ '/' :: y) = true → '/' ∉ p → isPrefixB p s = true := by
  induction p with
  | nil => intro s y _ _; rfl
  | cons a ps ih =>
    intro s y h hmem
    cases s with
    | nil =>
      exfalso
      simp only [List.nil_append, isPrefixB, Bool.and_eq_true, decide_eq_true_eq] at h
      exact hmem (h.1 ▸ List.mem_cons_self _ _)
    | cons b bs =>
      simp only [List.cons_append, isPrefixB, Bool.and_eq_true] at h ⊢
      exact ⟨h.1, ih bs y h.2 (fun hm => hmem (List.mem_cons_of_mem _ hm))⟩

/-- A suffix containing no `'/'` that is not a suffix of `stem` is not a suffix
of `x ++ '/' :: stem` either. -/
theorem isSuffixB_append_slash (suf x stem : List Char)
    (hs : isSuffixB suf stem = false) (hmem : '/' ∉ suf) :
    isSuffixB suf (x ++ '/' :: stem) = false := by
  by_contra hcon
  rw [Bool.not_eq_false] at hcon
  unfold isSuffixB at hcon
  have : (x ++ '/' :: stem).reverse = stem.reverse ++ '/' :: x.reverse := by
    rw [show ('/' :: stem : List Char) = ['/'] ++ stem from rfl, List.reverse_append,
      List.reverse_append]
    simp
  rw [this] at hcon
  have := isPrefixB_of_prefix_slash suf.reverse stem.reverse x.reverse hcon
    (fun hm => hmem (List.mem_reverse.mp hm))
  unfold isSuffixB at hs
  rw [hs] at this
  exact Bool.false_ne_true this

theorem mem_of_getLast?_eq {α : Type} {l : List α} {a : α} (h : l.getLast? = some a) :
    a ∈ l := by
  rw [List.getLast?_eq_head?_reverse] at h
  rw [← List.mem_reverse]
  cases hr : l.reverse with
  | nil => rw [hr] at h; simp at h
  | cons x t =>
    rw [hr] at h
    simp only [List.head?_cons, Option.some.injEq] at h
    exact h ▸ List.mem_cons_self _ _

theorem dropWhile_eq_self_of_head (l : List Char) (c : Char) (h : l.head? ≠ some c) :
    l.dropWhile (· == c) = l := by
  cases l with
  | nil => rfl
  | cons a t =>
    have : (a == c) = false := by
      simp only [List.head?_cons, ne_eq, Option.some.injEq] at h
      exact beq_eq_false_iff_ne.mpr h
    rw [List.dropWhile_cons, this]
    simp

/-- `strip` is the identity when neither end is the stripped character. -/
theorem stripChar_id (c : Char) (s : List Char)
    (h1 : s.head? ≠ some c) (h2 : s.getLast? ≠ some c) : stripChar c s = s := by
  rw [stripChar, dropWhile_eq_self_of_head s c h1,
    dropWhile_eq_self_of_head s.reverse c (by rw [List.head?_reverse]; exact h2),
    List.reverse_reverse]

/-- `strip("/")` on `t ++ "/"` yields `t` when `t` itself has clean ends. -/
theorem stripChar_append_slash (t : List Char) (h0 : t ≠ [])
    (h1 : t.head? ≠ some '/') (h2 : t.getLast? ≠ some '/') :
    stripChar '/' (t ++ ['/']) = t := by
  have hfront : (t ++ ['/']).dropWhile (· == '/') = t ++ ['/'] := by
    cases t with
    | nil => exact absurd rfl h0
    | cons a u =>
      apply dropWhile_eq_self_of_head
      simpa using h1
  rw [stripChar, hfront, List.reverse_append]
  simp only [List.reverse_cons, List.reverse_nil, List.nil_append, List.singleton_append,
    List.dropWhile_cons]
  rw [if_pos (by simp), dropWhile_eq_self_of_head t.reverse '/'
    (by rw [List.head?_reverse]; exact h2), List.reverse_reverse]

theorem replaceChar_append (a b : Char) (x y : List Char) :
    replaceChar a b (x ++ y) = replaceChar a b x ++ replaceChar a b y :=
  List.map_append _ _ _

theorem replaceChar_eq_self (a b : Char) (s : List Char) (h : a ∉ s) :
    replaceChar a b s = s := by
  induction s with
  | nil => rfl
  | cons x t ih =>
    have hxa : x ≠ a := fun hx => h (hx ▸ List.mem_cons_self _ _)
    simp only [replaceChar, List.map_cons, if_neg hxa]
    rw [show (List.map (fun x => if x = a then b else x) t : List Char)
      = replaceChar a b t from rfl, ih (fun hm => h (List.mem_cons_of_mem _ hm))]

theorem head?_ne_of_not_mem {c : Char} {l : List Char} (h : c ∉ l) : l.head? ≠ some c := by
  intro hc
  cases l with
  | nil => simp at hc
  | cons a t =>
    simp only [List.head?_cons, Option.some.injEq] at hc
    exact h (hc ▸ List.mem_cons_self _ _)

theorem getLast?_ne_of_not_mem {c : Char} {l : List Char} (h : c ∉ l) :
    l.getLast? ≠ some c :=
  fun hc => h (mem_of_getLast?_eq hc)

/-- C8 (amended): for a file under `base = dir ++ name`, the qualified name is
computed from the path relative to the root.  A package-initializer file
(`__init__.py`) maps to its containing directory's dotted name with no extra
segment — `name` itself for the root directory, `name.sub…` for a
subdirectory — and any other file whose extension-stripped name does not end
in `"__init__"` maps to its relative path with `/` replaced by `.` and the
`.py` extension stripped. -/
theorem path_to_module_name_spec
    (dir name sub stem : List Char)
    (hname : name ≠ [])
    (hnslash : '/' ∉ name)
    (hsub_ne : sub ≠ [])
    (hsub_l : sub.getLast? ≠ some '/')
    (hstem_ne : stem ≠ [])
    (hstem_l : stem.getLast? ≠ some '/')
    (hstem_init : isSuffixB initStr stem = false) :
    path_to_module_name (dir ++ name ++ '/' :: initStr ++ pyExt) (dir ++ name) name
      = name
    ∧ path_to_module_name (dir ++ name ++ '/' :: sub ++ '/' :: initStr ++ pyExt)
        (dir ++ name) name
      = name ++ '.' :: replaceChar '/' '.' sub
    ∧ path_to_module_name (dir ++ name ++ '/' :: stem ++ pyExt) (dir ++ name) name
      = name ++ '.' :: replaceChar '/' '.' stem := by
  have hlen : name.length ≠ 0 := fun h => hname (List.eq_nil_of_length_eq_zero h)
  have hpre : (if name.length = 0 then [] else
      (dir ++ name).take ((dir ++ name).length - name.length)) = dir := by
    rw [if_neg hlen]
    have : (dir ++ name).length - name.length = dir.length := by
      simp [List.length_append]
    rw [this, List.take_left]
  have hnh : name.head? ≠ some '/' := head?_ne_of_not_mem hnslash
  have hnl : name.getLast? ≠ some '/' := getLast?_ne_of_not_mem hnslash
  refine ⟨?_, ?_, ?_⟩
  · -- root initializer: path = dir ++ name ++ "/__init__.py"
    rw [path_to_module_name, hpre]
    rw [show dir ++ name ++ '/' :: initStr ++ pyExt
      = dir ++ ((name ++ '/' :: initStr) ++ pyExt) by simp]
    rw [removeprefix_append, removesuffix_append]
    rw [show name ++ '/' :: initStr = (name ++ ['/']) ++ initStr by simp]
    rw [removesuffix_append, stripChar_append_slash name hname hnh hnl,
      replaceChar_eq_self _ _ _ hnslash]
  · -- nested initializer: path = dir ++ name ++ "/" ++ sub ++ "/__init__.py"
    rw [path_to_module_name, hpre]
    rw [show dir ++ name ++ '/' :: sub ++ '/' :: initStr ++ pyExt
      = dir ++ ((name ++ '/' :: sub ++ '/' :: initStr) ++ pyExt) by simp]
    rw [removeprefix_append, removesuffix_append]
    rw [show name ++ '/' :: sub ++ '/' :: initStr
      = ((name ++ '/' :: sub) ++ ['/']) ++ initStr by simp]
    rw [removesuffix_append]
    have hth : (name ++ '/' :: sub).head? ≠ some '/' := by
      cases name with
      | nil => exact absurd rfl hname
      | cons a u => simpa using hnh
    have htl : (name ++ '/' :: sub).getLast? ≠ some '/' := by
      rw [List.getLast?_append]
      cases hs : sub.getLast? with
      | none => exact absurd (List.getLast?_eq_none_iff.mp hs) hsub_ne
      | some x =>
        have : ('/' :: sub).getLast? = some x := by
          rw [show ('/' :: sub : List Char) = ['/'] ++ sub from rfl, List.getLast?_append, hs]
          rfl
        rw [this]
        simpa [hs] using hsub_l
    rw [stripChar_append_slash _ (by simp) hth htl, replaceChar_append,
      replaceChar_eq_self _ _ _ hnslash]
    rfl
  · -- ordinary file: path = dir ++ name ++ "/" ++ stem ++ ".py"
    rw [path_to_module_name, hpre]
    rw [show dir ++ name ++ '/' :: stem ++ pyExt
      = dir ++ ((name ++ '/' :: stem) ++ pyExt) by simp]
    rw [removeprefix_append, removesuffix_append]
    have hnosuf : isSuffixB initStr (name ++ '/' :: stem) = false :=
      isSuffixB_append_slash initStr name stem hstem_init (by decide)
    rw [removesuffix_of_not _ _ hnosuf]
    have hth : (name ++ '/' :: stem).head? ≠ some '/' := by
      cases name with
      | nil => exact absurd rfl hname
      | cons a u => simpa using hnh
    have htl : (name ++ '/' :: stem).getLast? ≠ some '/' := by
      rw [List.getLast?_append]
      cases hs : stem.getLast? with
      | none => exact absurd (List.getLast?_eq_none_iff.mp hs) hstem_ne
      | some x =>
        have : ('/' :: stem).getLast? = some x := by
          rw [show ('/' :: stem : List Char) = ['/'] ++ stem from rfl, List.getLast?_append, hs]
          rfl
        rw [this]
        simpa [hs] using hstem_l
    rw [stripChar_id _ _ hth htl, replaceChar_append, replaceChar_eq_self _ _ _ hnslash]
    rfl

/-- Witness for `path_to_module_name_spec` at a concrete input
(`dir = "/s/"`, `name = "pkg"`, `sub = "sub"`, `stem = "mod"`). -/
theorem path_to_module_name_spec_witness :
    path_to_module_name ("/s/".data ++ "pkg".data ++ '/' :: "sub".data ++ '/' :: initStr ++ pyExt)
        ("/s/".data ++ "pkg".data) "pkg".data
      = "pkg".data ++ '.' :: replaceChar '/' '.' "sub".data :=
  (path_to_module_name_spec "/s/".data "pkg".data "sub".data "mod".data
    (by decide) (by decide) (by decide) (by decide) (by decide) (by decide)
    (by decide)).2.1

/-- C8 counterexample: the non-initializer file `my__init__.py` is mapped to
`pkg.my`, not to its relative path `pkg.my__init__` with the extension
stripped, because `removesuffix("__init__")` also fires on file names that
merely end in `__init__`. -/
theorem path_to_module_name_counterexample :
    path_to_module_name "/s/pkg/my__init__.py".data "/s/pkg".data "pkg".data
        = "pkg.my".data
    ∧ "pkg.my".data ≠ "pkg.my__init__".data := by
  constructor
  · decide
  · decide

/-! ## `graph.py`: `ImportVisitor.find_import_kind`

`find_import_kind` only inspects the chain of `_parent` links of the import
node, and of each ancestor only its type, and for an `If` its `test`
expression.  The chain of ancestors (nearest first; in a real AST it ends with
the `ast.Module` root, which has no `_parent`) is therefore embedded as a
list of node descriptors. -/

/-- The part of an `If` node's `test` expression that the `match` inspects:
`ast.Name(id=...)`, `ast.Attribute(attr=...)`, or anything else. -/
inductive TestExpr where
  | name (id : String)
  | attribute (attr : String)
  | otherTest
deriving DecidableEq, Repr

/-- Descriptor of an AST node as far as `find_import_kind` distinguishes
ancestors: the module root, an `If` with its test, a (possibly async) function
definition, a class definition, or any other statement (`For`, `While`, `Try`,
`With`, ...). -/
inductive NodeTag where
  | module
  | ifStmt (test : TestExpr)
  | functionDef
  | asyncFunctionDef
  | classDef
  | otherNode
deriving DecidableEq, Repr

/-- The test pattern `ast.Name(id="TYPE_CHECKING") | ast.Attribute(attr="TYPE_CHECKING")`. -/
def isTypeCheckingTest : TestExpr → Bool
  | .name id => id = "TYPE_CHECKING"
  | .attribute attr => attr = "TYPE_CHECKING"
  | .otherTest => false

/-- The `while True` loop of `find_import_kind`: starting from the current
node, return `dynamic` upon the first `FunctionDef`/`AsyncFunctionDef`, and
`vanilla` when the chain of `_parent` links is exhausted. -/
def findDynamic : List NodeTag → ImportKind
  | [] => .vanilla
  | .functionDef :: _ => .dynamic
  | .asyncFunctionDef :: _ => .dynamic
  | _ :: rest => findDynamic rest

/-- `ImportVisitor.find_import_kind(node)`, as a function of the ancestor chain
of the import node (nearest ancestor first).  The `match` inspects the direct
parent: an `If` whose own parent is the `ast.Module` root yields `typing` or
`conditional` depending on its test; every other shape falls through to the
upward `while` loop. -/
def find_import_kind : List NodeTag → ImportKind
  | NodeTag.ifStmt t :: NodeTag.module :: _ =>
      if isTypeCheckingTest t then .typing else .conditional
  | chain => findDynamic chain

/-- The nearest enclosing conditional of an import statement and whether it is
directly at file top level (its own parent is the module root). -/
def nearestConditional : List NodeTag → Option (TestExpr × Bool)
  | [] => none
  | NodeTag.ifStmt t :: rest => some (t, rest.head? = some NodeTag.module)
  | _ :: rest => nearestConditional rest

/-- The classification rules as the claim states them, for comparison with the
code: the nearest enclosing conditional, *when it sits directly at file top
level*, decides `typing`/`conditional`; otherwise a function-definition
ancestor anywhere up the chain yields `dynamic`; otherwise `vanilla`. -/
def spec_import_kind (chain : List NodeTag) : ImportKind :=
  match nearestConditional chain with
  | some (t, true) => if isTypeCheckingTest t then .typing else .conditional
  | _ =>
    if chain.any (fun n => n = NodeTag.functionDef ∨ n = NodeTag.asyncFunctionDef)
    then .dynamic else .vanilla

/-- The claim's rules with the first two restricted to a conditional that is
the import statement's immediate parent: this is what the code implements. -/
def spec_import_kind_amended (chain : List NodeTag) : ImportKind :=
  match chain with
  | NodeTag.ifStmt t :: NodeTag.module :: _ =>
      if isTypeCheckingTest t then .typing else .conditional
  | _ =>
    if chain.any (fun n => n = NodeTag.functionDef ∨ n = NodeTag.asyncFunctionDef)
    then .dynamic else .vanilla

theorem findDynamic_eq_any (chain : List NodeTag) :
    findDynamic chain =
      (if chain.any (fun n => n = NodeTag.functionDef ∨ n = NodeTag.asyncFunctionDef)
       then .dynamic else .vanilla) := by
  induction chain with
  | nil => rfl
  | cons a rest ih =>
    cases a <;> simp only [findDynamic, List.any_cons, ih] <;> simp

/-- C4 counterexample: for an import wrapped in a non-conditional statement
(e.g. a `try` or `for` body) inside a top-level `if`, the nearest enclosing
conditional is directly at file top level, so the claim's rules give
`conditional`; the code only matches the import's immediate parent and falls
through to `vanilla`. -/
theorem find_import_kind_counterexample :
    find_import_kind [NodeTag.otherNode, NodeTag.ifStmt (TestExpr.name "x"), NodeTag.module]
      = ImportKind.vanilla
    ∧ spec_import_kind [NodeTag.otherNode, NodeTag.ifStmt (TestExpr.name "x"), NodeTag.module]
      = ImportKind.conditional
    ∧ ImportKind.vanilla ≠ ImportKind.conditional := by
  refine ⟨rfl, ?_, by decide⟩
  rfl

/-- C4 (amended): an import's kind is `typing` or `conditional` (by whether the
test references the `TYPE_CHECKING` sentinel) exactly when its *immediate*
parent is a conditional directly at file top level; otherwise it is `dynamic`
when some ancestor up to the file root is a function definition, and `vanilla`
otherwise (including class-body nesting or no nesting). -/
theorem find_import_kind_spec (chain : List NodeTag) :
    find_import_kind chain = spec_import_kind_amended chain := by
  match chain with
  | NodeTag.ifStmt t :: NodeTag.module :: rest => rfl
  | [] => rfl
  | [NodeTag.ifStmt t] =>
      simp [find_import_kind, spec_import_kind_amended, findDynamic_eq_any]
  | NodeTag.ifStmt t :: b :: rest =>
      cases b <;>
        simp [find_import_kind, spec_import_kind_amended, findDynamic_eq_any]
  | NodeTag.module :: rest =>
      simp [find_import_kind, spec_import_kind_amended, findDynamic_eq_any]
  | NodeTag.functionDef :: rest => rfl
  | NodeTag.asyncFunctionDef :: rest => rfl
  | NodeTag.classDef :: rest =>
      simp [find_import_kind, spec_import_kind_amended, findDynamic_eq_any]
  | NodeTag.otherNode :: rest =>
      simp [find_import_kind, spec_import_kind_amended, findDynamic_eq_any]

/-! ## `graph.py`: the Module registry, `add_import`, `Module.parse`,
`build_digraph`

A dotted qualified name is embedded as the list of its `.`-separated segments
(`"foo.bar".split(".") = ["foo", "bar"]`); for well-formed inputs (segments
free of `'.'`) this is interchangeable with the dotted string, and the
hypotheses of the theorems below restrict to such inputs.  A Python `Module`
object is identified with its name (`__hash__`/`__eq__` are delegated to the
name), so the mutable object graph becomes a `BuildState` of association
lists that keep every insertion order. -/

/-- A dotted qualified module name as its list of segments. -/
abbrev Name := List String

/-- One import statement collected by `ImportVisitor`: the (already
relative-resolved) dotted module split into segments, the optional `name` of
an `ast.ImportFrom`, and the `_parent` ancestor chain of the AST node. -/
structure RawImport where
  module : Name
  attr : Option String
  chain : List NodeTag
deriving DecidableEq, Repr

/-- One source file under the root: its path parts relative to the source
root (the last part is the file name, e.g. `["sub", "mod.py"]`) together
with the import statements collected from its AST. -/
structure FileIn where
  rel : List String
  imps : List RawImport
deriving DecidableEq, Repr

/-- The state built by `Module.parse`: the registered module names in
`module_map` insertion order, the `parent.children[child.name] = child` links
in linkage order, and each module's `imports` dict as an insertion-ordered
map from target name to insertion-ordered tag set. -/
structure BuildState where
  rootName : String
  modules : List Name
  childLinks : List (Name × Name)
  imports : List (Name × List (Name × List ImportKind))
deriving DecidableEq, Repr

/-- The sort key of `Module.parse`'s file loop:
`key=lambda x: x.parent if x.name == "__init__.py" else x`. -/
def sortKey (rel : List String) : List String :=
  if rel.getLast? = some "__init__.py" then rel.dropLast else rel

/-- Joining path parts with a separator character, as `pathlib` renders the
path string (and `.`-joining renders a dotted name). -/
def joinParts (sep : Char) : List String → List Char
  | [] => []
  | [p] => p.data
  | p :: q :: ps => p.data ++ sep :: joinParts sep (q :: ps)

/-- The character string that `pathlib`'s path ordering compares. -/
def keyChars (f : FileIn) : List Char :=
  joinParts '/' (sortKey f.rel)

/-- `Path.__lt__`-induced weak order on files: comparison of the key strings
(lexicographic on characters). -/
def fileLe (a b : FileIn) : Prop := keyChars a ≤ keyChars b

instance : DecidableRel fileLe := fun a b => inferInstanceAs (Decidable (_ ≤ _))

instance : IsTotal FileIn fileLe := ⟨fun _ _ => le_total _ _⟩

instance : IsTrans FileIn fileLe := ⟨fun _ _ _ => le_trans⟩

/-- The strict version of `fileLe`, used to state where the sort is forced. -/
def fileLt (a b : FileIn) : Prop := keyChars a < keyChars b

instance : IsAntisymm FileIn fileLt := ⟨fun _ _ h1 h2 => absurd h1 (lt_asymm h2)⟩

/-- `sorted(source_path.rglob("*.py"), key=...)`: a stable sort by the key;
with pairwise distinct keys any sort produces this list. -/
def sortFiles (files : List FileIn) : List FileIn :=
  files.insertionSort fileLe

/-- `removesuffix(".py")` at the file-name level. -/
def stripPy (s : String) : String :=
  ⟨removesuffix pyExt s.data⟩

/-- `removesuffix("__init__")` at the file-name level. -/
def stripInitSuffix (s : String) : String :=
  ⟨removesuffix initStr s.data⟩

/-- `path_to_module_name(str(path), str(source_path), root_name)` at the
path-parts level: an initializer file maps to its directory's segments, any
other file to its parts with the `.py` extension (and, as in the
character-level function, a trailing `"__init__"`) stripped from the last
part; the root name is the leading segment. -/
def nameOf (root : String) (rel : List String) : Name :=
  match rel.getLast? with
  | none => [root]
  | some f =>
    if f = "__init__.py" then root :: rel.dropLast
    else root :: rel.dropLast ++ [stripInitSuffix (stripPy f)]

/-- `name.rsplit(".", 1)[0]`: the name with its last dotted segment removed; a
single-segment name is returned unchanged. -/
def parentName (n : Name) : Name :=
  if n.length ≤ 1 then n else n.dropLast

/-- `Module.__init__(name, parent)` preceded by `Module.parse`'s
`module_map.get(name.rsplit(".", 1)[0])`: when the parent name is already
registered the new module is linked into `parent.children` and starts with
the implicit `{parent: {"parent"}}` import entry, otherwise it starts with an
empty imports dict. -/
def createModule (st : BuildState) (name : Name) : BuildState :=
  let pname := parentName name
  if pname ∈ st.modules then
    { st with
      modules := st.modules ++ [name]
      childLinks := st.childLinks ++ [(pname, name)]
      imports := st.imports ++ [(name, [(pname, [ImportKind.parent])])] }
  else
    { st with
      modules := st.modules ++ [name]
      imports := st.imports ++ [(name, [])] }

/-- `Module.__getitem__(item) = self.children[item]`; a missing key is a
`KeyError` (`none`). -/
def childLookup (st : BuildState) (parent key : Name) : Option Name :=
  if (parent, key) ∈ st.childLinks then some key else none

/-- The `itertools.accumulate` loop of `add_import`: starting from the module
`cur` (whose name is `acc`), successively index into the children by the
lengthening dotted prefixes. -/
def resolveFrom (st : BuildState) : Name → Name → List String → Option Name
  | cur, _, [] => some cur
  | cur, acc, s :: rest =>
    match childLookup st cur (acc ++ [s]) with
    | some m => resolveFrom st m (acc ++ [s]) rest
    | none => none

/-- The resolution loop of `add_import` with its seed `{root.name: root}`:
the first accumulated prefix must be exactly the root name, after which
children are indexed; a failing lookup is an uncaught `KeyError` (`none`).
(Python's `"x".split(".")` is never empty, so the `[]` case is unreachable.) -/
def resolve_module (st : BuildState) (module : Name) : Option Name :=
  match module with
  | [] => none
  | s :: rest =>
    if s = st.rootName then resolveFrom st [st.rootName] [s] rest else none

/-- `self.imports[target].add(tag)` inside one module's `imports` dict: add
the tag to the target's tag set, creating the entry if absent
(`defaultdict(set)`). -/
def addTagTo (adj : List (Name × List ImportKind)) (target : Name)
    (tag : ImportKind) : List (Name × List ImportKind) :=
  if adj.any (fun p => p.1 = target) then
    adj.map fun p =>
      if p.1 = target then (p.1, if tag ∈ p.2 then p.2 else p.2 ++ [tag]) else p
  else adj ++ [(target, [tag])]

/-- The same update lifted to the map of all modules' imports. -/
def updateImports (imps : List (Name × List (Name × List ImportKind)))
    (owner target : Name) (tag : ImportKind) :
    List (Name × List (Name × List ImportKind)) :=
  if imps.any (fun p => p.1 = owner) then
    imps.map fun p => if p.1 = owner then (p.1, addTagTo p.2 target tag) else p
  else imps ++ [(owner, addTagTo [] target tag)]

/-- `Module.add_import(import_, tag, root)`: resolve the dotted module through
the seed and the children maps; when `name` is present additionally try
`f"{module}.{name}"` as a child, the `KeyError` falling back to the shorter
resolution; then merge the tag into `self.imports[target]`.  The outer `none`
is the uncaught `KeyError` of the accumulate loop. -/
def add_import (st : BuildState) (owner : Name) (imp : RawImport)
    (tag : ImportKind) : Option BuildState :=
  match resolve_module st imp.module with
  | none => none
  | some target =>
    let target2 :=
      match imp.attr with
      | none => target
      | some nm =>
        match childLookup st target (imp.module ++ [nm]) with
        | some m => m
        | none => target
    some { st with imports := updateImports st.imports owner target2 tag }

/-- `m["module"].startswith(root_name)`, the first-party filter of
`Module.parse`, on the dotted module string. -/
def keepImport (root : String) (i : RawImport) : Bool :=
  isPrefixB root.data (joinParts '.' i.module)

/-- The creation phase of `Module.parse`: files processed in sorted order,
each creating one `Module`. -/
def creationPhase (root : String) (files : List FileIn) : BuildState :=
  (sortFiles files).foldl (fun st f => createModule st (nameOf root f.rel))
    ⟨root, [], [], []⟩

/-- `Module.parse(source_path)`: create all modules in sorted file order, look
up the root module (`module_map[root_name]`, a `KeyError` when missing), then
register every retained first-party import on its module, each import's kind
classified by `find_import_kind`. -/
def parse (root : String) (files : List FileIn) : Option BuildState :=
  let st1 := creationPhase root files
  if [root] ∈ st1.modules then
    (sortFiles files).foldlM
      (fun st f =>
        (f.imps.filter (keepImport root)).foldlM
          (fun st' i => add_import st' (nameOf root f.rel) i (find_import_kind i.chain))
          st)
      st1
  else none

/-- `module.children.values()` in insertion order. -/
def childrenOf (st : BuildState) (m : Name) : List Name :=
  (st.childLinks.filter (fun p => p.1 = m)).map (fun p => p.2)

/-- `Module.walk`: the module followed by the recursive walks of its
children.  The fuel only bounds the recursion depth; `walkAll` supplies
enough fuel for every state arising from `parse`, whose links always increase
name length. -/
def walkNames (st : BuildState) : Nat → Name → List Name
  | 0, m => [m]
  | fuel + 1, m => m :: (childrenOf st m).flatMap (walkNames st fuel)

/-- `Module.walk(root)` as `build_digraph` uses it. -/
def walkAll (st : BuildState) : List Name :=
  walkNames st st.modules.length [st.rootName]

/-- One module's adjacency (its `imports` dict); empty for an unknown name. -/
def adjOf (st : BuildState) (m : Name) : List (Name × List ImportKind) :=
  ((st.imports.find? (fun p => p.1 = m)).map (fun p => p.2)).getD []

/-- The tag set on edge `a → b`; empty when the edge is absent. -/
def tagsOn (st : BuildState) (a b : Name) : List ImportKind :=
  (((adjOf st a).find? (fun p => p.1 = b)).map (fun p => p.2)).getD []

/-- `g.has_edge(a, b)`: `build_digraph` adds an edge for every walked module
from each entry of its imports dict. -/
def hasEdge (st : BuildState) (order : List Name) (a b : Name) : Bool :=
  order.any (fun m => m = a) && (adjOf st a).any (fun p => p.1 = b)

/-- The per-edge metadata exported by `build_digraph` and `_run`: the `tags`
list (the Python tag set materialized as a list) and the `cycle` value
(`none` is JSON `null`). -/
structure EdgeMeta where
  tags : List ImportKind
  cycle : Option EdgeKind
deriving DecidableEq, Repr

/-- `build_digraph(root, **kwargs)` followed by `_run`'s
`{key: {**graph[key]} for key in graph}`: nodes in walk order, each module's
edges in imports-insertion order; a reciprocal edge's `cycle` is its
`cycle_severity`, otherwise `None`.  The outer `none` propagates the
`IndexError` of `cycle_severity` on an empty tag union; `setOrder` is the
iteration order Python happens to use when materializing each tag set as a
list (CPython leaves it unspecified for `set`). -/
def exportGraph (st : BuildState) (kwargs : ImportKind → Option EdgeKind)
    (setOrder : List ImportKind → List ImportKind) :
    Option (List (Name × List (Name × EdgeMeta))) :=
  let order := walkAll st
  order.mapM fun a =>
    ((adjOf st a).mapM fun p =>
      (if hasEdge st order p.1 a then
        (cycle_severity p.2.toFinset (tagsOn st p.1 a).toFinset kwargs).map some
       else some none).map
        fun cyc => (p.1, EdgeMeta.mk (setOrder p.2) cyc)).map
      fun adj => (a, adj)

/-- The complete pipeline of `_run` on an already-enumerated tree. -/
def runPipeline (root : String) (files : List FileIn)
    (kwargs : ImportKind → Option EdgeKind)
    (setOrder : List ImportKind → List ImportKind) :
    Option (List (Name × List (Name × EdgeMeta))) :=
  (parse root files).bind fun st => exportGraph st kwargs setOrder

/-! ## Resolution (claims C5 and C6) -/

/-- The chain of child lookups `resolveFrom` performs from `acc`. -/
def chainLinked (st : BuildState) : Name → List String → Prop
  | _, [] => True
  | acc, s :: rest => (acc, acc ++ [s]) ∈ st.childLinks ∧ chainLinked st (acc ++ [s]) rest

/-- Consistency of the registry with the children links, as the creation phase
produces it on sorted well-formed input: every link joins a registered module
of at least two segments to its registered parent name, and every such module
is linked. -/
def LinksSpec (st : BuildState) : Prop :=
  (∀ pc ∈ st.childLinks,
    (pc : Name × Name).2 ∈ st.modules ∧ 2 ≤ pc.2.length
      ∧ pc.1 = pc.2.dropLast ∧ pc.1 ∈ st.modules)
  ∧ (∀ c ∈ st.modules, 2 ≤ (c : Name).length → c.dropLast ∈ st.modules →
      (c.dropLast, c) ∈ st.childLinks)

theorem LinksSpec.mem_iff {st : BuildState} (h : LinksSpec st) (p c : Name) :
    (p, c) ∈ st.childLinks ↔
      (c ∈ st.modules ∧ 2 ≤ c.length ∧ p = c.dropLast ∧ p ∈ st.modules) := by
  constructor
  · intro hmem; exact h.1 _ hmem
  · rintro ⟨hc, hlen, hp, hpm⟩
    subst hp
    exact h.2 _ hc hlen hpm

theorem chainLinked_nil (st : BuildState) (acc : Name) :
    chainLinked st acc [] ↔ True :=
  Iff.rfl

theorem chainLinked_cons (st : BuildState) (acc : Name) (s : String) (rest : List String) :
    chainLinked st acc (s :: rest) ↔
      ((acc, acc ++ [s]) ∈ st.childLinks ∧ chainLinked st (acc ++ [s]) rest) :=
  Iff.rfl

theorem resolveFrom_some_iff (st : BuildState) :
    ∀ (rest : List String) (acc t : Name),
      resolveFrom st acc acc rest = some t ↔ (t = acc ++ rest ∧ chainLinked st acc rest) := by
  intro rest
  induction rest with
  | nil =>
    intro acc t
    simp [resolveFrom, chainLinked_nil, eq_comm]
  | cons s rest ih =>
    intro acc t
    rw [chainLinked_cons]
    by_cases hmem : (acc, acc ++ [s]) ∈ st.childLinks
    · rw [show resolveFrom st acc acc (s :: rest)
        = resolveFrom st (acc ++ [s]) (acc ++ [s]) rest by
          rw [resolveFrom, childLookup, if_pos hmem]]
      rw [ih (acc ++ [s]) t]
      constructor
      · rintro ⟨h1, h2⟩
        exact ⟨by simpa [List.append_assoc] using h1, hmem, h2⟩
      · rintro ⟨h1, _, h2⟩
        exact ⟨by simpa [List.append_assoc] using h1, h2⟩
    · rw [show resolveFrom st acc acc (s :: rest) = none by
        rw [resolveFrom, childLookup, if_neg hmem]]
      simp [hmem]

theorem chainLinked_iff_prefixes (st : BuildState) (hlinks : LinksSpec st) :
    ∀ (rest : List String) (acc : Name), acc ≠ [] → acc ∈ st.modules →
      (chainLinked st acc rest ↔
        ∀ k, k ≤ rest.length → acc ++ rest.take k ∈ st.modules) := by
  intro rest
  induction rest with
  | nil =>
    intro acc _ hacc
    rw [chainLinked_nil]
    simp only [List.length_nil, Nat.le_zero]
    constructor
    · intro _ k hk; subst hk; simpa using hacc
    · intro _; trivial
  | cons s rest ih =>
    intro acc hne hacc
    rw [chainLinked_cons]
    constructor
    · rintro ⟨hlink, hchain⟩
      have hcmem : acc ++ [s] ∈ st.modules := ((hlinks.mem_iff _ _).mp hlink).1
      intro k hk
      cases k with
      | zero => simpa using hacc
      | succ j =>
        have hj : j ≤ rest.length := by simpa using hk
        have := (ih (acc ++ [s]) (by simp) hcmem).mp hchain j hj
        simpa [List.append_assoc] using this
    · intro hall
      have hcmem : acc ++ [s] ∈ st.modules := by
        have := hall 1 (by simp only [List.length_cons]; omega)
        simpa using this
      have hlen2 : 2 ≤ (acc ++ [s]).length := by
        cases acc with
        | nil => exact absurd rfl hne
        | cons a u => simp [List.length_append]
      refine ⟨(hlinks.mem_iff _ _).mpr
        ⟨hcmem, hlen2, (List.dropLast_concat).symm, hacc⟩, ?_⟩
      refine (ih (acc ++ [s]) (by simp) hcmem).mpr ?_
      intro j hj
      have := hall (j + 1) (by simpa using Nat.succ_le_succ hj)
      simpa [List.append_assoc] using this

/-- Full characterization of `resolve_module` on a consistent registry: it
succeeds exactly when the dotted target starts with the root name and every
nonempty dotted prefix of it is a registered module, and then the result is
the full target. -/
theorem resolve_module_some_iff (st : BuildState)
    (hlinks : LinksSpec st) (hroot : [st.rootName] ∈ st.modules) (X t : Name) :
    resolve_module st X = some t ↔
      (t = X ∧ X.head? = some st.rootName
        ∧ ∀ k, 1 ≤ k → k ≤ X.length → X.take k ∈ st.modules) := by
  cases X with
  | nil => simp [resolve_module]
  | cons s rest =>
    by_cases hs : s = st.rootName
    · subst hs
      rw [resolve_module, if_pos rfl]
      rw [resolveFrom_some_iff st rest [st.rootName] t,
        chainLinked_iff_prefixes st hlinks rest [st.rootName] (by simp) hroot]
      constructor
      · rintro ⟨ht, hall⟩
        refine ⟨by simpa using ht, rfl, ?_⟩
        intro k h1 hk
        cases k with
        | zero => omega
        | succ j =>
          have := hall j (by simpa using hk)
          rw [List.take_cons (by omega)]
          simpa using this
      · rintro ⟨ht, _, hall⟩
        refine ⟨by simpa using ht, ?_⟩
        intro k hk
        have := hall (k + 1) (by omega) (by simpa using Nat.succ_le_succ hk)
        rw [List.take_cons (by omega)] at this
        simpa using this
    · rw [resolve_module, if_neg hs]
      constructor
      · intro h; exact Option.noConfusion h
      · rintro ⟨_, hh, _⟩
        exact absurd (by simpa using hh) hs

/-- The resolver the claim describes, modelled on the spec's words: the edge
target is the registered module given by the longest resolvable prefix of the
dotted target string. -/
def spec_resolve_longest_prefix (st : BuildState) (X : Name) : Option Name :=
  ((List.range (X.length + 1)).reverse.find?
    (fun k => decide (1 ≤ k) && decide (X.take k ∈ st.modules))).map
    (fun k => X.take k)

/-- C6 counterexample: in a registry holding `pkg` and `pkg.a`, the target
`pkg.b` has a known first segment and longest resolvable prefix `pkg`, but
`resolve_module` raises an uncaught `KeyError` (`none`) instead of resolving
to `pkg`. -/
theorem resolve_module_counterexample :
    resolve_module (creationPhase "pkg" [⟨["__init__.py"], []⟩, ⟨["a.py"], []⟩])
        ["pkg", "b"] = none
    ∧ spec_resolve_longest_prefix
        (creationPhase "pkg" [⟨["__init__.py"], []⟩, ⟨["a.py"], []⟩])
        ["pkg", "b"] = some ["pkg"]
    ∧ ["pkg"] ∈ (creationPhase "pkg" [⟨["__init__.py"], []⟩, ⟨["a.py"], []⟩]).modules := by
  exact ⟨by decide, by decide, by decide⟩

/-- C6 (amended): resolution of a dotted import target walks its segments from
the root, indexing into each module's children; it succeeds exactly when every
nonempty dotted prefix of the target (starting with the root name) is a
registered module, and the edge target is then the module named by the full
target string — an unregistered later segment does not fall back to a shorter
prefix but raises an uncaught `KeyError`. -/
theorem resolve_module_full_prefix (st : BuildState) (X t : Name)
    (hlinks : LinksSpec st) (hroot : [st.rootName] ∈ st.modules) :
    resolve_module st X = some t ↔
      (t = X ∧ X.head? = some st.rootName
        ∧ ∀ k, 1 ≤ k → k ≤ X.length → X.take k ∈ st.modules) :=
  resolve_module_some_iff st hlinks hroot X t

/-- Witness for `resolve_module_full_prefix` on the two-module registry. -/
theorem resolve_module_full_prefix_witness :
    LinksSpec (creationPhase "pkg" [⟨["__init__.py"], []⟩, ⟨["a.py"], []⟩])
    ∧ (resolve_module (creationPhase "pkg" [⟨["__init__.py"], []⟩, ⟨["a.py"], []⟩])
        ["pkg", "a"] = some ["pkg", "a"] ↔
      (["pkg", "a"] = ["pkg", "a"]
        ∧ (["pkg", "a"] : Name).head?
            = some (creationPhase "pkg" [⟨["__init__.py"], []⟩, ⟨["a.py"], []⟩]).rootName
        ∧ ∀ k, 1 ≤ k → k ≤ (["pkg", "a"] : Name).length →
            (["pkg", "a"] : Name).take k
              ∈ (creationPhase "pkg" [⟨["__init__.py"], []⟩, ⟨["a.py"], []⟩]).modules)) :=
  ⟨by constructor
      · decide
      · decide,
   resolve_module_full_prefix _ _ _
      (by constructor
          · decide
          · decide)
      (by decide)⟩

/-! ## The import-set update (claim C5) -/

theorem find?_map_ite {β : Type} (l : List (Name × β)) (key : Name) (f : β → β) :
    (l.map (fun p => if p.1 = key then (p.1, f p.2) else p)).find? (fun p => p.1 = key)
      = (l.find? (fun p => p.1 = key)).map (fun p => (p.1, f p.2)) := by
  induction l with
  | nil => rfl
  | cons q rest ih =>
    by_cases hq : q.1 = key
    · simp [List.find?_cons, hq]
    · have hd : decide (q.1 = key) = false := decide_eq_false hq
      simp only [List.map_cons, if_neg hq, List.find?_cons, hd]
      exact ih

theorem find?_updateImports (imps : List (Name × List (Name × List ImportKind)))
    (owner target : Name) (tag : ImportKind) :
    ((updateImports imps owner target tag).find? (fun p => p.1 = owner)).map
        (fun p => p.2)
      = some (addTagTo
          (((imps.find? (fun p => p.1 = owner)).map (fun p => p.2)).getD [])
          target tag) := by
  unfold updateImports
  by_cases hany : imps.any (fun p => p.1 = owner)
  · rw [if_pos hany,
      show (fun p : Name × List (Name × List ImportKind) =>
          if p.1 = owner then (p.1, addTagTo p.2 target tag) else p)
        = (fun p : Name × List (Name × List ImportKind) =>
          if p.1 = owner then (p.1, (fun v => addTagTo v target tag) p.2) else p)
        from rfl,
      find?_map_ite imps owner (fun v => addTagTo v target tag)]
    cases hfind : imps.find? (fun p => p.1 = owner) with
    | none =>
      exfalso
      obtain ⟨q, hqmem, hq⟩ := List.any_eq_true.mp hany
      exact (List.find?_eq_none.mp hfind q hqmem) hq
    | some q => simp [hfind]
  · rw [if_neg hany, List.find?_append]
    have hnone : imps.find? (fun p => p.1 = owner) = none := by
      rw [List.find?_eq_none]
      intro x hx hpx
      exact hany (List.any_eq_true.mpr ⟨x, hx, hpx⟩)
    simp [hnone, List.find?_cons]

theorem adjOf_updateImports (st : BuildState) (owner target : Name) (tag : ImportKind) :
    adjOf { st with imports := updateImports st.imports owner target tag } owner
      = addTagTo (adjOf st owner) target tag := by
  unfold adjOf
  rw [show ({ st with imports := updateImports st.imports owner target tag } :
        BuildState).imports = updateImports st.imports owner target tag from rfl,
    find?_updateImports]
  rfl

theorem find?_addTagTo_self (adj : List (Name × List ImportKind)) (target : Name)
    (tag : ImportKind) :
    ((addTagTo adj target tag).find? (fun p => p.1 = target)).map (fun p => p.2)
      = some (match (adj.find? (fun p => p.1 = target)).map (fun p => p.2) with
              | some tags => if tag ∈ tags then tags else tags ++ [tag]
              | none => [tag]) := by
  unfold addTagTo
  by_cases hany : adj.any (fun p => p.1 = target)
  · rw [if_pos hany,
      show (fun p : Name × List ImportKind =>
          if p.1 = target then (p.1, if tag ∈ p.2 then p.2 else p.2 ++ [tag]) else p)
        = (fun p : Name × List ImportKind =>
          if p.1 = target then (p.1, (fun v => if tag ∈ v then v else v ++ [tag]) p.2) else p)
        from rfl,
      find?_map_ite adj target (fun v => if tag ∈ v then v else v ++ [tag])]
    cases hfind : adj.find? (fun p => p.1 = target) with
    | none =>
      exfalso
      obtain ⟨q, hqmem, hq⟩ := List.any_eq_true.mp hany
      exact (List.find?_eq_none.mp hfind q hqmem) hq
    | some q => simp [hfind]
  · rw [if_neg hany, List.find?_append]
    have hnone : adj.find? (fun p => p.1 = target) = none := by
      rw [List.find?_eq_none]
      intro x hx hpx
      exact hany (List.any_eq_true.mpr ⟨x, hx, hpx⟩)
    simp [hnone, List.find?_cons]

theorem mem_tagsOn_update (st : BuildState) (owner target : Name) (tag : ImportKind) :
    tag ∈ tagsOn { st with imports := updateImports st.imports owner target tag }
      owner target := by
  unfold tagsOn
  rw [adjOf_updateImports, find?_addTagTo_self]
  cases hfind : ((adjOf st owner).find? (fun p => p.1 = target)).map (fun p => p.2) with
  | none => simp
  | some tags =>
    by_cases htag : tag ∈ tags
    · simp [htag]
    · simp [htag]

/-- C5: for a tuple `from X import nm` whose dotted part `X` resolves, the
resolver attempts one further lookup of `X.nm` as a child module: when `X.nm`
is registered the edge target is `X.nm`, otherwise the target is the
resolution of `X` alone (`nm` treated as a plain attribute); the `(target,
kind)` pair is merged into the owner's import set. -/
theorem add_import_attr_spec (st : BuildState) (owner X : Name) (nm : String)
    (tag : ImportKind) (chain : List NodeTag)
    (hlinks : LinksSpec st) (hroot : [st.rootName] ∈ st.modules)
    (hres : resolve_module st X = some X) :
    add_import st owner ⟨X, some nm, chain⟩ tag
      = some { st with
          imports := updateImports st.imports owner
            (if X ++ [nm] ∈ st.modules then X ++ [nm] else X) tag }
    ∧ tag ∈ tagsOn { st with
          imports := updateImports st.imports owner
            (if X ++ [nm] ∈ st.modules then X ++ [nm] else X) tag } owner
        (if X ++ [nm] ∈ st.modules then X ++ [nm] else X) := by
  have hspec := (resolve_module_some_iff st hlinks hroot X X).mp hres
  have hXne : X ≠ [] := by
    rintro rfl
    simp [resolve_module] at hres
  have hXmem : X ∈ st.modules := by
    have h1 : 1 ≤ X.length := by
      cases X with
      | nil => exact absurd rfl hXne
      | cons a u => simp only [List.length_cons]; omega
    have := hspec.2.2 X.length h1 le_rfl
    simpa [List.take_length] using this
  have hchild : childLookup st X (X ++ [nm])
      = if X ++ [nm] ∈ st.modules then some (X ++ [nm]) else none := by
    unfold childLookup
    by_cases hmem : X ++ [nm] ∈ st.modules
    · rw [if_pos hmem, if_pos]
      refine (hlinks.mem_iff X (X ++ [nm])).mpr
        ⟨hmem, ?_, List.dropLast_concat.symm, hXmem⟩
      cases X with
      | nil => exact absurd rfl hXne
      | cons a u => simp only [List.length_append, List.length_cons,
          List.length_singleton]; omega
    · rw [if_neg hmem, if_neg]
      intro hlink
      exact hmem ((hlinks.mem_iff _ _).mp hlink).1
  constructor
  · unfold add_import
    simp only [hres, hchild]
    by_cases hmem : X ++ [nm] ∈ st.modules
    · simp [hmem]
    · simp [hmem]
  · exact mem_tagsOn_update st owner _ tag

/-- Witness for `add_import_attr_spec`: in the registry `{foo, foo.bar}`,
`from foo import bar` resolves to the module `foo.bar`. -/
theorem add_import_attr_spec_witness :
    resolve_module (creationPhase "foo" [⟨["__init__.py"], []⟩, ⟨["bar.py"], []⟩])
        ["foo"] = some ["foo"]
    ∧ add_import (creationPhase "foo" [⟨["__init__.py"], []⟩, ⟨["bar.py"], []⟩])
        ["foo"] ⟨["foo"], some "bar", [NodeTag.module]⟩ ImportKind.vanilla
      = some { creationPhase "foo" [⟨["__init__.py"], []⟩, ⟨["bar.py"], []⟩] with
          imports := updateImports
            (creationPhase "foo" [⟨["__init__.py"], []⟩, ⟨["bar.py"], []⟩]).imports
            ["foo"]
            (if ["foo"] ++ ["bar"]
                ∈ (creationPhase "foo" [⟨["__init__.py"], []⟩, ⟨["bar.py"], []⟩]).modules
             then ["foo"] ++ ["bar"] else ["foo"])
            ImportKind.vanilla } :=
  ⟨by decide,
    (add_import_attr_spec
      (creationPhase "foo" [⟨["__init__.py"], []⟩, ⟨["bar.py"], []⟩])
      ["foo"] ["foo"] "bar" ImportKind.vanilla [NodeTag.module]
      (by constructor
          · decide
          · decide)
      (by decide) (by decide)).1⟩

/-! ## File ordering and the creation phase (claim C7) -/

theorem lt_append_cons (l : List Char) (c : Char) (m : List Char) : l < l ++ c :: m := by
  show List.Lex (· < ·) l (l ++ c :: m)
  induction l with
  | nil => exact List.Lex.nil
  | cons a t ih => exact List.Lex.cons ih

theorem joinParts_cons_cons (sep : Char) (p q : String) (ps : List String) :
    joinParts sep (p :: q :: ps) = p.data ++ sep :: joinParts sep (q :: ps) :=
  rfl

theorem joinParts_append (sep : Char) (d r : List String) (hd : d ≠ []) (hr : r ≠ []) :
    joinParts sep (d ++ r) = joinParts sep d ++ sep :: joinParts sep r := by
  induction d with
  | nil => exact absurd rfl hd
  | cons p d' ih =>
    cases d' with
    | nil =>
      cases r with
      | nil => exact absurd rfl hr
      | cons q rs => rfl
    | cons p2 d'' =>
      calc joinParts sep ((p :: p2 :: d'') ++ r)
          = p.data ++ sep :: joinParts sep ((p2 :: d'') ++ r) := rfl
        _ = p.data ++ sep :: (joinParts sep (p2 :: d'') ++ sep :: joinParts sep r) := by
            rw [ih (by simp)]
        _ = (p.data ++ sep :: joinParts sep (p2 :: d'')) ++ sep :: joinParts sep r := by
            simp
        _ = joinParts sep (p :: p2 :: d'') ++ sep :: joinParts sep r := by
            rw [joinParts_cons_cons]

theorem joinParts_ne_nil (sep : Char) (l : List String) (hl : l ≠ []) (he : "" ∉ l) :
    joinParts sep l ≠ [] := by
  cases l with
  | nil => exact absurd rfl hl
  | cons q rs =>
    cases rs with
    | nil =>
      show q.data ≠ []
      intro h
      have hq : q = "" := String.ext h
      apply he
      rw [← hq]
      exact List.mem_cons_self q []
    | cons q2 rs' =>
      rw [joinParts_cons_cons]
      simp

theorem joinParts_lt (d r : List String) (hr : r ≠ []) (hre : "" ∉ r) :
    joinParts '/' d < joinParts '/' (d ++ r) := by
  cases d with
  | nil =>
    rw [List.nil_append]
    cases hj : joinParts '/' r with
    | nil => exact absurd hj (joinParts_ne_nil '/' r hr hre)
    | cons c cs => exact List.nil_lt_cons c cs
  | cons p d' =>
    rw [joinParts_append '/' (p :: d') r (by simp) hr]
    exact lt_append_cons _ _ _

theorem sortFiles_perm (files : List FileIn) : (sortFiles files).Perm files :=
  List.perm_insertionSort _ _

theorem sortFiles_sorted (files : List FileIn) : List.Sorted fileLe (sortFiles files) :=
  List.sorted_insertionSort _ _

theorem indexOf_lt_of_lt_sorted {l : List FileIn} (hs : List.Sorted fileLe l)
    {a b : FileIn} (ha : a ∈ l) (hb : b ∈ l) (hlt : keyChars a < keyChars b) :
    l.indexOf a < l.indexOf b := by
  by_contra hcon
  push_neg at hcon
  have hia : l.indexOf a < l.length := List.indexOf_lt_length.mpr ha
  have hib : l.indexOf b < l.length := List.indexOf_lt_length.mpr hb
  rcases Nat.lt_or_ge (l.indexOf b) (l.indexOf a) with hlt2 | hge
  · have hrel := hs.rel_get_of_lt (a := ⟨l.indexOf b, hib⟩) (b := ⟨l.indexOf a, hia⟩)
      (by exact hlt2)
    rw [List.get_eq_getElem, List.get_eq_getElem, List.getElem_indexOf,
      List.getElem_indexOf] at hrel
    exact absurd hlt (not_lt.mpr hrel)
  · have heq : l.indexOf a = l.indexOf b := le_antisymm hge hcon
    have hab : a = b := (List.indexOf_inj ha hb).mp heq
    rw [hab] at hlt
    exact absurd hlt (lt_irrefl _)

/-- The directory's initializer sorts strictly before any other file in or
beneath the directory. -/
theorem init_key_lt (files : List FileIn)
    (hparts : ∀ f ∈ files, f.rel ≠ [] ∧ "" ∉ f.rel)
    {f g : FileIn} (hg : g ∈ files)
    (hinit : f.rel.getLast? = some "__init__.py")
    (hpre : f.rel.dropLast <+: g.rel)
    (hne1 : g.rel ≠ f.rel) (hne2 : g.rel ≠ f.rel.dropLast) :
    keyChars f < keyChars g := by
  have hkf : keyChars f = joinParts '/' f.rel.dropLast := by
    unfold keyChars sortKey
    rw [if_pos hinit]
  obtain ⟨r, hr⟩ := hpre
  have hrne : r ≠ [] := by
    rintro rfl
    exact hne2 (by simpa using hr.symm)
  have hre : "" ∉ r := by
    intro hmem
    exact (hparts g hg).2 (hr ▸ List.mem_append_right _ hmem)
  by_cases hginit : g.rel.getLast? = some "__init__.py"
  · have hkg : keyChars g = joinParts '/' (f.rel.dropLast ++ r.dropLast) := by
      unfold keyChars sortKey
      rw [if_pos hginit, ← hr, List.dropLast_append_of_ne_nil _ hrne]
    have hrdne : r.dropLast ≠ [] := by
      intro hnil
      have hlast : r = [r.getLast hrne] := by
        conv_lhs => rw [← List.dropLast_append_getLast hrne]
        rw [hnil, List.nil_append]
      have hrg : r.getLast hrne = "__init__.py" := by
        have : g.rel.getLast? = some (r.getLast hrne) := by
          rw [← hr]
          conv_lhs => rw [hlast]
          exact List.getLast?_concat _
        rw [hginit] at this
        exact (Option.some.inj this).symm
      apply hne1
      rw [← hr, hlast, hrg]
      have : f.rel = f.rel.dropLast ++ ["__init__.py"] := by
        have hfne : f.rel ≠ [] := by
          intro h
          rw [h] at hinit
          exact Option.noConfusion hinit
        conv_lhs => rw [← List.dropLast_append_getLast hfne]
        have : f.rel.getLast hfne = "__init__.py" := by
          have h2 : f.rel.getLast? = some (f.rel.getLast hfne) := by
            conv_lhs => rw [← List.dropLast_append_getLast hfne]
            exact List.getLast?_concat _
          rw [hinit] at h2
          exact (Option.some.inj h2).symm
        rw [this]
      exact this.symm
    rw [hkf, hkg]
    exact joinParts_lt _ _ hrdne
      (fun hmem => hre (List.mem_of_mem_dropLast hmem))
  · have hkg : keyChars g = joinParts '/' (f.rel.dropLast ++ r) := by
      unfold keyChars sortKey
      rw [if_neg hginit, ← hr]
    rw [hkf, hkg]
    exact joinParts_lt _ _ hrne hre

theorem createModule_modules (st : BuildState) (n : Name) :
    (createModule st n).modules = st.modules ++ [n] := by
  unfold createModule
  by_cases h : parentName n ∈ st.modules
  · rw [if_pos h]
  · rw [if_neg h]

theorem createModule_links_mono (st : BuildState) (n : Name) {pc : Name × Name}
    (h : pc ∈ st.childLinks) : pc ∈ (createModule st n).childLinks := by
  unfold createModule
  by_cases hp : parentName n ∈ st.modules
  · rw [if_pos hp]
    exact List.mem_append_left _ h
  · rw [if_neg hp]
    exact h

theorem createModule_link_self (st : BuildState) (n : Name)
    (h : parentName n ∈ st.modules) :
    (parentName n, n) ∈ (createModule st n).childLinks := by
  unfold createModule
  rw [if_pos h]
  exact List.mem_append_right _ (by simp)

theorem foldCreate_modules (root : String) (l : List FileIn) (st0 : BuildState) :
    (l.foldl (fun st f => createModule st (nameOf root f.rel)) st0).modules
      = st0.modules ++ l.map (fun f => nameOf root f.rel) := by
  induction l generalizing st0 with
  | nil => simp
  | cons f rest ih =>
    rw [List.foldl_cons, ih, createModule_modules]
    simp

theorem foldCreate_links_mono (root : String) (l : List FileIn) (st0 : BuildState)
    {pc : Name × Name} (h : pc ∈ st0.childLinks) :
    pc ∈ (l.foldl (fun st f => createModule st (nameOf root f.rel)) st0).childLinks := by
  induction l generalizing st0 with
  | nil => exact h
  | cons f rest ih =>
    rw [List.foldl_cons]
    exact ih _ (createModule_links_mono _ _ h)

theorem nameOf_init (root : String) (d : List String) :
    nameOf root (d ++ ["__init__.py"]) = root :: d := by
  unfold nameOf
  rw [List.getLast?_concat]
  simp [List.dropLast_concat]

theorem parentName_nameOf_noninit (root : String) (d : List String) (fname : String)
    (hne : fname ≠ "__init__.py") :
    parentName (nameOf root (d ++ [fname])) = root :: d := by
  unfold nameOf
  rw [List.getLast?_concat]
  simp only [if_neg hne]
  unfold parentName
  rw [List.dropLast_concat, if_neg]
  · rw [show root :: d ++ [stripInitSuffix (stripPy fname)]
      = (root :: d) ++ [stripInitSuffix (stripPy fname)] from rfl,
      List.dropLast_concat]
  · simp only [List.length_cons, List.length_append, List.length_singleton]
    omega

theorem parentName_nameOf_init (root : String) (d : List String) (hd : d ≠ []) :
    parentName (nameOf root (d ++ ["__init__.py"])) = root :: d.dropLast := by
  rw [nameOf_init]
  unfold parentName
  rw [if_neg, List.dropLast_cons_of_ne_nil hd]
  cases d with
  | nil => exact absurd rfl hd
  | cons a u =>
    simp only [List.length_cons]
    omega

/-- The initializer file whose module is the parent of `f`'s module sorts
strictly before `f`. -/
theorem parent_init_before (root : String) (files : List FileIn)
    (hparts : ∀ f ∈ files, f.rel ≠ [] ∧ "" ∉ f.rel)
    (hinits : ∀ f ∈ files, ∀ k, k ≤ f.rel.dropLast.length →
      ∃ g ∈ files, g.rel = f.rel.dropLast.take k ++ ["__init__.py"])
    {f : FileIn} (hf : f ∈ files) (hroot : nameOf root f.rel ≠ [root]) :
    ∃ g ∈ files, nameOf root g.rel = parentName (nameOf root f.rel)
      ∧ (sortFiles files).indexOf g < (sortFiles files).indexOf f := by
  have horder : ∀ f ∈ files, ∀ g ∈ files, f.rel.getLast? = some "__init__.py" →
      f.rel.dropLast <+: g.rel → g.rel ≠ f.rel → g.rel ≠ f.rel.dropLast →
      (sortFiles files).indexOf f < (sortFiles files).indexOf g := by
    intro f hf g hg hinit hpre hne1 hne2
    exact indexOf_lt_of_lt_sorted (sortFiles_sorted files)
      ((sortFiles_perm files).mem_iff.mpr hf)
      ((sortFiles_perm files).mem_iff.mpr hg)
      (init_key_lt files hparts hg hinit hpre hne1 hne2)
  -- decompose f.rel as d ++ [fname]
  have hfne : f.rel ≠ [] := (hparts f hf).1
  obtain ⟨d, fname, hrel⟩ : ∃ d fname, f.rel = d ++ [fname] :=
    ⟨f.rel.dropLast, f.rel.getLast hfne, (List.dropLast_append_getLast hfne).symm⟩
  -- the initializer file of the directory that owns the parent module
  obtain ⟨dg, hdg, hgname, hcase⟩ : ∃ dg, dg <+: f.rel.dropLast
      ∧ parentName (nameOf root f.rel) = nameOf root (dg ++ ["__init__.py"])
      ∧ ((fname ≠ "__init__.py" ∧ f.rel.length = dg.length + 1)
          ∨ f.rel.length = dg.length + 2) := by
    by_cases hfinit : fname = "__init__.py"
    · subst hfinit
      have hd : d ≠ [] := by
        intro hnil
        apply hroot
        rw [hrel, hnil, List.nil_append, show ([("__init__.py" : String)] : List String)
          = [] ++ ["__init__.py"] from rfl, nameOf_init]
      refine ⟨d.dropLast, ?_, ?_, Or.inr ?_⟩
      · rw [hrel, List.dropLast_concat]
        exact List.dropLast_prefix d
      · rw [hrel, parentName_nameOf_init root d hd, nameOf_init]
      · rw [hrel]
        simp only [List.length_append, List.length_singleton, List.length_dropLast]
        cases d with
        | nil => exact absurd rfl hd
        | cons a u => simp only [List.length_cons]; omega
    · refine ⟨d, ?_, ?_, Or.inl ⟨hfinit, ?_⟩⟩
      · rw [hrel, List.dropLast_concat]
      · rw [hrel, parentName_nameOf_noninit root d fname hfinit, nameOf_init]
      · rw [hrel]
        simp [List.length_append]
  obtain ⟨g, hgfiles, hgrel⟩ : ∃ g ∈ files, g.rel = dg ++ ["__init__.py"] := by
    obtain ⟨g, hg, hgr⟩ := hinits f hf dg.length hdg.length_le
    exact ⟨g, hg, by rw [hgr, ← List.prefix_iff_eq_take.mp hdg]⟩
  have hginit' : g.rel.getLast? = some "__init__.py" := by
    rw [hgrel]
    exact List.getLast?_concat _
  have hpre' : g.rel.dropLast <+: f.rel := by
    rw [hgrel, List.dropLast_concat]
    exact hdg.trans (List.dropLast_prefix f.rel)
  have hglen : g.rel.length = dg.length + 1 := by
    rw [hgrel]
    simp [List.length_append]
  have hne1' : f.rel ≠ g.rel := by
    rcases hcase with ⟨hfn, _⟩ | hlen2
    · intro heq
      have hlast := congrArg List.getLast? heq
      rw [hrel, List.getLast?_concat, hginit'] at hlast
      exact hfn (Option.some.inj hlast)
    · intro heq
      have hlen := congrArg List.length heq
      rw [hglen] at hlen
      omega
  have hne2' : f.rel ≠ g.rel.dropLast := by
    rw [hgrel, List.dropLast_concat]
    intro heq
    have hlen := congrArg List.length heq
    rcases hcase with ⟨_, h1⟩ | h2
    · omega
    · omega
  have hlt : (sortFiles files).indexOf g < (sortFiles files).indexOf f :=
    horder g hgfiles f hf hginit' hpre' hne1' hne2'
  refine ⟨g, hgfiles, ?_, hlt⟩
  rw [hgrel]
  exact hgname.symm

/-- Membership in the `take` up to a later index. -/
theorem mem_take_of_indexOf_lt {l : List FileIn} {g : FileIn} (hg : g ∈ l) {n : ℕ}
    (hlt : l.indexOf g < n) : g ∈ l.take n := by
  have higL : l.indexOf g < l.length := List.indexOf_lt_length.mpr hg
  have hlen : l.indexOf g < (l.take n).length := by
    rw [List.length_take]
    exact lt_min hlt higL
  have hgg : (l.take n)[l.indexOf g] = g := by
    rw [List.getElem_take, List.getElem_indexOf higL]
  exact hgg ▸ List.getElem_mem hlen

/-- C7: in the sorted processing order every directory's initializer file
comes before any other file located in or beneath that directory, and as a
consequence, after the creation phase every non-root module is linked to its
parent module — the parent `Module` object already existed in the registry
when the child was created. -/
theorem parse_order_parents_first (root : String) (files : List FileIn)
    (hparts : ∀ f ∈ files, f.rel ≠ [] ∧ "" ∉ f.rel)
    (hinits : ∀ f ∈ files, ∀ k, k ≤ f.rel.dropLast.length →
      ∃ g ∈ files, g.rel = f.rel.dropLast.take k ++ ["__init__.py"]) :
    (∀ f ∈ files, ∀ g ∈ files, f.rel.getLast? = some "__init__.py" →
      f.rel.dropLast <+: g.rel → g.rel ≠ f.rel → g.rel ≠ f.rel.dropLast →
      (sortFiles files).indexOf f < (sortFiles files).indexOf g)
    ∧ (∀ f ∈ files, nameOf root f.rel ≠ [root] →
        (parentName (nameOf root f.rel), nameOf root f.rel)
          ∈ (creationPhase root files).childLinks) := by
  constructor
  · intro f hf g hg hinit hpre hne1 hne2
    exact indexOf_lt_of_lt_sorted (sortFiles_sorted files)
      ((sortFiles_perm files).mem_iff.mpr hf)
      ((sortFiles_perm files).mem_iff.mpr hg)
      (init_key_lt files hparts hg hinit hpre hne1 hne2)
  · intro f hf hroot
    obtain ⟨g, hgfiles, hgname, hlt⟩ :=
      parent_init_before root files hparts hinits hf hroot
    have hfL : f ∈ sortFiles files := (sortFiles_perm files).mem_iff.mpr hf
    have hiL : (sortFiles files).indexOf f < (sortFiles files).length :=
      List.indexOf_lt_length.mpr hfL
    have hsplit : sortFiles files
        = (sortFiles files).take ((sortFiles files).indexOf f)
          ++ f :: (sortFiles files).drop ((sortFiles files).indexOf f + 1) := by
      conv_lhs =>
        rw [← List.take_append_drop ((sortFiles files).indexOf f) (sortFiles files)]
      rw [List.drop_eq_getElem_cons hiL, List.getElem_indexOf hiL]
    unfold creationPhase
    rw [hsplit, List.foldl_append, List.foldl_cons]
    apply foldCreate_links_mono
    apply createModule_link_self
    rw [foldCreate_modules]
    rw [show (⟨root, [], [], []⟩ : BuildState).modules = [] from rfl, List.nil_append]
    rw [← hgname]
    exact List.mem_map_of_mem _
      (mem_take_of_indexOf_lt ((sortFiles_perm files).mem_iff.mpr hgfiles) hlt)

/-- Witness for `parse_order_parents_first` on a two-level package. -/
theorem parse_order_parents_first_witness :
    ((∀ f ∈ [(⟨["__init__.py"], []⟩ : FileIn), ⟨["sub", "__init__.py"], []⟩,
        ⟨["sub", "mod.py"], []⟩], f.rel ≠ [] ∧ "" ∉ f.rel)
      ∧ (∀ f ∈ [(⟨["__init__.py"], []⟩ : FileIn), ⟨["sub", "__init__.py"], []⟩,
          ⟨["sub", "mod.py"], []⟩], ∀ k, k ≤ f.rel.dropLast.length →
          ∃ g ∈ [(⟨["__init__.py"], []⟩ : FileIn), ⟨["sub", "__init__.py"], []⟩,
            ⟨["sub", "mod.py"], []⟩], g.rel = f.rel.dropLast.take k ++ ["__init__.py"]))
    ∧ (∀ f ∈ [(⟨["__init__.py"], []⟩ : FileIn), ⟨["sub", "__init__.py"], []⟩,
        ⟨["sub", "mod.py"], []⟩], nameOf "pkg" f.rel ≠ ["pkg"] →
        (parentName (nameOf "pkg" f.rel), nameOf "pkg" f.rel)
          ∈ (creationPhase "pkg" [(⟨["__init__.py"], []⟩ : FileIn),
              ⟨["sub", "__init__.py"], []⟩, ⟨["sub", "mod.py"], []⟩]).childLinks) := by
  have hparts : ∀ f ∈ [(⟨["__init__.py"], []⟩ : FileIn), ⟨["sub", "__init__.py"], []⟩,
      ⟨["sub", "mod.py"], []⟩], f.rel ≠ [] ∧ "" ∉ f.rel := by decide
  have hinits : ∀ f ∈ [(⟨["__init__.py"], []⟩ : FileIn), ⟨["sub", "__init__.py"], []⟩,
      ⟨["sub", "mod.py"], []⟩], ∀ k, k ≤ f.rel.dropLast.length →
      ∃ g ∈ [(⟨["__init__.py"], []⟩ : FileIn), ⟨["sub", "__init__.py"], []⟩,
        ⟨["sub", "mod.py"], []⟩], g.rel = f.rel.dropLast.take k ++ ["__init__.py"] := by
    decide
  exact ⟨⟨hparts, hinits⟩,
    (parse_order_parents_first "pkg" _ hparts hinits).2⟩

/-! ## The implicit parent edge (claim C3) -/

theorem not_mem_take_indexOf {α : Type} [DecidableEq α] (l : List α) (a : α) :
    a ∉ l.take (l.indexOf a) := by
  induction l with
  | nil => simp
  | cons x xs ih =>
    by_cases hx : x = a
    · subst hx
      simp [List.indexOf_cons]
    · rw [List.indexOf_cons, show (x == a) = false from beq_eq_false_iff_ne.mpr hx]
      simp only [cond_false, List.take_succ_cons, List.mem_cons]
      rintro (h | h)
      · exact hx h.symm
      · exact ih h

theorem createModule_imports (st : BuildState) (n : Name) :
    (createModule st n).imports
      = st.imports ++ [(n, if parentName n ∈ st.modules
          then [(parentName n, [ImportKind.parent])] else [])] := by
  unfold createModule
  by_cases h : parentName n ∈ st.modules
  · rw [if_pos h, if_pos h]
  · rw [if_neg h, if_neg h]

theorem createModule_rootName (st : BuildState) (n : Name) :
    (createModule st n).rootName = st.rootName := by
  unfold createModule
  by_cases h : parentName n ∈ st.modules
  · rw [if_pos h]
  · rw [if_neg h]

theorem foldCreate_imports (root : String) (l : List FileIn) (st0 : BuildState) :
    ∃ rest, (l.foldl (fun st f => createModule st (nameOf root f.rel)) st0).imports
        = st0.imports ++ rest
      ∧ rest.map (fun p => p.1) = l.map (fun f => nameOf root f.rel) := by
  induction l generalizing st0 with
  | nil => exact ⟨[], by simp, rfl⟩
  | cons f fl ih =>
    obtain ⟨rest, h1, h2⟩ := ih (createModule st0 (nameOf root f.rel))
    refine ⟨(nameOf root f.rel,
        if parentName (nameOf root f.rel) ∈ st0.modules
        then [(parentName (nameOf root f.rel), [ImportKind.parent])] else []) :: rest,
      ?_, ?_⟩
    · rw [List.foldl_cons, h1, createModule_imports]
      simp
    · simp [h2]

theorem find?_key_eq_none {β : Type} (l : List (Name × β)) (m : Name)
    (h : m ∉ l.map (fun p => p.1)) :
    l.find? (fun p => p.1 = m) = none := by
  rw [List.find?_eq_none]
  intro x hx hpx
  apply h
  have hx1 : x.1 = m := by simpa using hpx
  exact hx1 ▸ List.mem_map_of_mem _ hx

/-- The index of the first occurrence of a name. -/
def firstIdx : List Name → Name → Nat
  | [], _ => 0
  | n :: ns, m => if n = m then 0 else firstIdx ns m + 1

theorem firstIdx_cons (n : Name) (ns : List Name) (m : Name) :
    firstIdx (n :: ns) m = if n = m then 0 else firstIdx ns m + 1 :=
  rfl

theorem firstIdx_lt_length {l : List Name} {m : Name} (h : m ∈ l) :
    firstIdx l m < l.length := by
  induction l with
  | nil => simp at h
  | cons n ns ih =>
    rw [firstIdx_cons]
    by_cases hn : n = m
    · rw [if_pos hn]
      simp
    · rw [if_neg hn]
      have hm : m ∈ ns := by
        rcases List.mem_cons.mp h with h1 | h1
        · exact absurd h1.symm hn
        · exact h1
      simpa using ih hm

theorem getElem?_firstIdx {l : List Name} {m : Name} (h : m ∈ l) :
    l[firstIdx l m]? = some m := by
  induction l with
  | nil => simp at h
  | cons n ns ih =>
    by_cases hn : n = m
    · rw [firstIdx_cons, if_pos hn]
      simp [hn]
    · rw [firstIdx_cons, if_neg hn, List.getElem?_cons_succ]
      have hm : m ∈ ns := by
        rcases List.mem_cons.mp h with h1 | h1
        · exact absurd h1.symm hn
        · exact h1
      exact ih hm

theorem not_mem_take_firstIdx (l : List Name) (m : Name) :
    m ∉ l.take (firstIdx l m) := by
  induction l with
  | nil => simp
  | cons n ns ih =>
    by_cases hn : n = m
    · rw [firstIdx_cons, if_pos hn]
      simp
    · rw [firstIdx_cons, if_neg hn, List.take_succ_cons]
      intro hmem
      rcases List.mem_cons.mp hmem with h1 | h1
      · exact hn h1.symm
      · exact ih h1

theorem firstIdx_le {l : List Name} {m : Name} (j : Nat)
    (hg : l[j]? = some m) : firstIdx l m ≤ j := by
  induction l generalizing j with
  | nil => simp at hg
  | cons n ns ih =>
    by_cases hn : n = m
    · rw [firstIdx_cons, if_pos hn]
      exact Nat.zero_le j
    · rw [firstIdx_cons, if_neg hn]
      cases j with
      | zero =>
        rw [List.getElem?_cons_zero] at hg
        exact absurd (Option.some.inj hg) hn
      | succ j' =>
        rw [List.getElem?_cons_succ] at hg
        exact Nat.succ_le_succ (ih j' hg)

theorem indexOf_le_of_getElem {α : Type} [DecidableEq α] {l : List α} {a : α}
    (j : Nat) (hj : j < l.length) (hg : l[j] = a) : l.indexOf a ≤ j := by
  induction l generalizing j with
  | nil => simp at hj
  | cons x xs ih =>
    by_cases hx : x = a
    · rw [List.indexOf_cons, show (x == a) = true from beq_iff_eq.mpr hx]
      simp
    · rw [List.indexOf_cons, show (x == a) = false from beq_eq_false_iff_ne.mpr hx]
      simp only [cond_false]
      cases j with
      | zero =>
        rw [List.getElem_cons_zero] at hg
        exact absurd hg hx
      | succ j' =>
        rw [List.getElem_cons_succ] at hg
        exact Nat.succ_le_succ (ih j' (by simpa using hj) hg)

/-- The imports dict a module holds right after the creation phase: the
implicit parent edge when the parent name was registered before the module's
first creation, and nothing else. -/
theorem adjOf_creationPhase (root : String) (files : List FileIn) (m : Name)
    (hm : m ∈ (creationPhase root files).modules) :
    adjOf (creationPhase root files) m
      = if parentName m ∈ (((sortFiles files).map (fun f => nameOf root f.rel)).take
            (firstIdx ((sortFiles files).map (fun f => nameOf root f.rel)) m))
        then [(parentName m, [ImportKind.parent])] else [] := by
  have hmods : (creationPhase root files).modules
      = (sortFiles files).map (fun f => nameOf root f.rel) := by
    unfold creationPhase
    rw [foldCreate_modules]
    rfl
  set L := sortFiles files with hL
  set names := L.map (fun f => nameOf root f.rel) with hnames
  have hmn : m ∈ names := hmods ▸ hm
  have hi : firstIdx names m < names.length := firstIdx_lt_length hmn
  have hiL : firstIdx names m < L.length := by
    rw [← List.length_map L (fun f => nameOf root f.rel)]
    exact hi
  have hnameAt : nameOf root (L[firstIdx names m]).rel = m := by
    have h1 : names[firstIdx names m]? = some m := getElem?_firstIdx hmn
    rw [hnames, List.getElem?_map, List.getElem?_eq_getElem hiL] at h1
    exact Option.some.inj (by simpa using h1)
  have hsplit : L = L.take (firstIdx names m)
      ++ L[firstIdx names m] :: L.drop (firstIdx names m + 1) := by
    conv_lhs => rw [← List.take_append_drop (firstIdx names m) L]
    rw [List.drop_eq_getElem_cons hiL]
  unfold creationPhase
  rw [← hL, hsplit, List.foldl_append, List.foldl_cons, hnameAt]
  set stI := (L.take (firstIdx names m)).foldl
      (fun st f => createModule st (nameOf root f.rel)) (⟨root, [], [], []⟩ : BuildState)
    with hstI
  have hstImod : stI.modules = names.take (firstIdx names m) := by
    rw [hstI, foldCreate_modules, hnames, List.map_take]
    rfl
  obtain ⟨restI, hri, hrik⟩ : ∃ restI, stI.imports = restI
      ∧ restI.map (fun p => p.1) = names.take (firstIdx names m) := by
    obtain ⟨restI, h1, h2⟩ := foldCreate_imports root (L.take (firstIdx names m))
      ⟨root, [], [], []⟩
    refine ⟨restI, by simpa using h1, ?_⟩
    rw [h2, hnames, List.map_take]
  obtain ⟨restD, hrestD, _⟩ := foldCreate_imports root (L.drop (firstIdx names m + 1))
    (createModule stI m)
  unfold adjOf
  rw [hrestD, createModule_imports, hri, List.append_assoc, List.find?_append]
  have hnone : restI.find? (fun p => p.1 = m) = none :=
    find?_key_eq_none _ _ (by rw [hrik]; exact not_mem_take_firstIdx names m)
  rw [hnone]
  have hfind : (((m, if parentName m ∈ stI.modules
        then [(parentName m, [ImportKind.parent])] else []) :: restD).find?
        (fun p => p.1 = m))
      = some (m, if parentName m ∈ stI.modules
        then [(parentName m, [ImportKind.parent])] else []) := by
    rw [List.find?_cons]
    simp
  rw [show ([(m, if parentName m ∈ stI.modules
        then [(parentName m, [ImportKind.parent])] else [])] ++ restD)
      = ((m, if parentName m ∈ stI.modules
        then [(parentName m, [ImportKind.parent])] else []) :: restD) from rfl,
    hfind, hstImod]
  by_cases hp : parentName m ∈ names.take (firstIdx names m)
  · rw [if_pos hp]
    rfl
  · rw [if_neg hp]
    rfl

/-- On well-formed sorted input, every non-root module's imports dict right
after the creation phase is exactly the implicit parent edge. -/
theorem adjOf_creationPhase_nonroot (root : String) (files : List FileIn)
    (hparts : ∀ f ∈ files, f.rel ≠ [] ∧ "" ∉ f.rel)
    (hinits : ∀ f ∈ files, ∀ k, k ≤ f.rel.dropLast.length →
      ∃ g ∈ files, g.rel = f.rel.dropLast.take k ++ ["__init__.py"])
    (m : Name) (hm : m ∈ (creationPhase root files).modules) (hroot : m ≠ [root]) :
    adjOf (creationPhase root files) m = [(parentName m, [ImportKind.parent])] := by
  rw [adjOf_creationPhase root files m hm]
  set L := sortFiles files with hL
  set names := L.map (fun f => nameOf root f.rel) with hnames
  have hmods : (creationPhase root files).modules = names := by
    unfold creationPhase
    rw [foldCreate_modules]
    rfl
  have hmn : m ∈ names := hmods ▸ hm
  have hi : firstIdx names m < names.length := firstIdx_lt_length hmn
  have hiL : firstIdx names m < L.length := by
    rw [← List.length_map L (fun f => nameOf root f.rel)]
    exact hi
  have hnameAt : nameOf root (L[firstIdx names m]).rel = m := by
    have h1 : names[firstIdx names m]? = some m := getElem?_firstIdx hmn
    rw [hnames, List.getElem?_map, List.getElem?_eq_getElem hiL] at h1
    exact Option.some.inj (by simpa using h1)
  have hfmem : L[firstIdx names m] ∈ files :=
    (sortFiles_perm files).mem_iff.mp (List.getElem_mem hiL)
  obtain ⟨g, hgfiles, hgname, hglt⟩ :=
    parent_init_before root files hparts hinits hfmem (by rw [hnameAt]; exact hroot)
  rw [hnameAt] at hgname
  have hidxle : L.indexOf L[firstIdx names m] ≤ firstIdx names m :=
    indexOf_le_of_getElem _ hiL rfl
  have hglt2 : L.indexOf g < firstIdx names m := lt_of_lt_of_le hglt hidxle
  have hgtake : g ∈ L.take (firstIdx names m) :=
    mem_take_of_indexOf_lt ((sortFiles_perm files).mem_iff.mpr hgfiles) hglt2
  have hp : parentName m ∈ names.take (firstIdx names m) := by
    rw [hnames, ← List.map_take]
    rw [← hgname]
    exact List.mem_map_of_mem _ hgtake
  rw [if_pos hp]

/-- The root module starts with no imports at all. -/
theorem adjOf_creationPhase_root (root : String) (files : List FileIn)
    (hm : [root] ∈ (creationPhase root files).modules) :
    adjOf (creationPhase root files) [root] = [] := by
  rw [adjOf_creationPhase root files [root] hm]
  have hpn : parentName [root] = [root] := by
    unfold parentName
    rw [if_pos (by simp)]
  rw [hpn, if_neg]
  exact not_mem_take_firstIdx _ _

/-- A name that was never registered has an empty imports dict. -/
theorem adjOf_creationPhase_absent (root : String) (files : List FileIn) (m : Name)
    (hm : m ∉ (creationPhase root files).modules) :
    adjOf (creationPhase root files) m = [] := by
  have hmods : (creationPhase root files).modules
      = (sortFiles files).map (fun f => nameOf root f.rel) := by
    unfold creationPhase
    rw [foldCreate_modules]
    rfl
  obtain ⟨rest, h1, h2⟩ := foldCreate_imports root (sortFiles files) ⟨root, [], [], []⟩
  unfold adjOf creationPhase
  rw [h1, show (⟨root, [], [], []⟩ : BuildState).imports = [] from rfl, List.nil_append]
  rw [find?_key_eq_none rest m (by rw [h2, ← hmods]; exact hm)]
  rfl

theorem find?_map_preserve {β : Type} (l : List (Name × β)) (key other : Name)
    (f : β → β) (hne : other ≠ key) :
    (l.map (fun p => if p.1 = key then (p.1, f p.2) else p)).find? (fun p => p.1 = other)
      = l.find? (fun p => p.1 = other) := by
  induction l with
  | nil => rfl
  | cons q rest ih =>
    by_cases hq : q.1 = key
    · have hqo : decide (q.1 = other) = false :=
        decide_eq_false (fun h => hne (h ▸ hq))
      simp only [List.map_cons, if_pos hq, List.find?_cons, hqo]
      exact ih
    · by_cases hqo : q.1 = other
      · have hd : decide (q.1 = other) = true := decide_eq_true hqo
        simp only [List.map_cons, if_neg hq, List.find?_cons, hd]
      · have hd : decide (q.1 = other) = false := decide_eq_false hqo
        simp only [List.map_cons, if_neg hq, List.find?_cons, hd]
        exact ih

theorem find?_addTagTo_other (adj : List (Name × List ImportKind)) (target : Name)
    (tag : ImportKind) (b : Name) (hb : b ≠ target) :
    (addTagTo adj target tag).find? (fun p => p.1 = b)
      = adj.find? (fun p => p.1 = b) := by
  unfold addTagTo
  by_cases hany : adj.any (fun p => p.1 = target)
  · rw [if_pos hany,
      show (fun p : Name × List ImportKind =>
          if p.1 = target then (p.1, if tag ∈ p.2 then p.2 else p.2 ++ [tag]) else p)
        = (fun p : Name × List ImportKind =>
          if p.1 = target then (p.1, (fun v => if tag ∈ v then v else v ++ [tag]) p.2) else p)
        from rfl,
      find?_map_preserve adj target b (fun v => if tag ∈ v then v else v ++ [tag]) hb]
  · rw [if_neg hany, List.find?_append]
    have hnone : ([(target, [tag])].find? (fun p => p.1 = b)) = none := by
      rw [List.find?_cons]
      have hd : decide ((target, [tag]).1 = b) = false :=
        decide_eq_false (fun h => hb h.symm)
      rw [hd]
      rfl
    rw [hnone]
    cases adj.find? (fun p => p.1 = b) <;> rfl

theorem adjOf_updateImports_other (st : BuildState) (owner target : Name)
    (tag : ImportKind) (a : Name) (ha : a ≠ owner) :
    adjOf { st with imports := updateImports st.imports owner target tag } a
      = adjOf st a := by
  unfold adjOf updateImports
  by_cases hany : st.imports.any (fun p => p.1 = owner)
  · rw [if_pos hany,
      show (fun p : Name × List (Name × List ImportKind) =>
          if p.1 = owner then (p.1, addTagTo p.2 target tag) else p)
        = (fun p : Name × List (Name × List ImportKind) =>
          if p.1 = owner then (p.1, (fun v => addTagTo v target tag) p.2) else p)
        from rfl,
      find?_map_preserve st.imports owner a (fun v => addTagTo v target tag) ha]
  · rw [if_neg hany, List.find?_append]
    have hnone : ([(owner, addTagTo [] target tag)].find? (fun p => p.1 = a)) = none := by
      rw [List.find?_cons]
      have hd : decide ((owner, addTagTo [] target tag).1 = a) = false :=
        decide_eq_false (fun h => ha h.symm)
      rw [hd]
      rfl
    rw [hnone]
    cases st.imports.find? (fun p => p.1 = a) <;> rfl

theorem mem_addTagTo_cases (adj : List (Name × List ImportKind)) (target : Name)
    (tag : ImportKind) {q : Name × List ImportKind} (h : q ∈ addTagTo adj target tag)
    (x : ImportKind) (hx : x ∈ q.2) :
    (∃ p ∈ adj, p.1 = q.1 ∧ x ∈ p.2) ∨ x = tag := by
  unfold addTagTo at h
  by_cases hany : adj.any (fun p => p.1 = target)
  · rw [if_pos hany] at h
    obtain ⟨p, hp, hmap⟩ := List.mem_map.mp h
    by_cases hpt : p.1 = target
    · rw [if_pos hpt] at hmap
      by_cases htag : tag ∈ p.2
      · rw [if_pos htag] at hmap
        rw [← hmap] at hx
        exact Or.inl ⟨p, hp, by rw [← hmap], hx⟩
      · rw [if_neg htag] at hmap
        rw [← hmap] at hx
        rcases List.mem_append.mp hx with h1 | h1
        · exact Or.inl ⟨p, hp, by rw [← hmap], h1⟩
        · exact Or.inr (by simpa using h1)
    · rw [if_neg hpt] at hmap
      rw [← hmap] at hx
      exact Or.inl ⟨p, hp, by rw [← hmap], hx⟩
  · rw [if_neg hany] at h
    rcases List.mem_append.mp h with h1 | h1
    · exact Or.inl ⟨q, h1, rfl, hx⟩
    · have hq : q = (target, [tag]) := by simpa using h1
      rw [hq] at hx
      rw [hq]
      exact Or.inr (by simpa using hx)

theorem addTagTo_keys_nodup (adj : List (Name × List ImportKind)) (target : Name)
    (tag : ImportKind) (h : (adj.map (fun p => p.1)).Nodup) :
    ((addTagTo adj target tag).map (fun p => p.1)).Nodup := by
  unfold addTagTo
  by_cases hany : adj.any (fun p => p.1 = target)
  · rw [if_pos hany]
    have hkeys : (adj.map (fun p =>
          if p.1 = target then (p.1, if tag ∈ p.2 then p.2 else p.2 ++ [tag]) else p)).map
            (fun p => p.1)
        = adj.map (fun p => p.1) := by
      rw [List.map_map]
      apply List.map_congr_left
      intro p _
      by_cases hpt : p.1 = target
      · simp [hpt]
      · simp [hpt]
    rw [hkeys]
    exact h
  · rw [if_neg hany, List.map_append]
    have htn : target ∉ adj.map (fun p => p.1) := by
      intro hmem
      obtain ⟨p, hp, hpt⟩ := List.mem_map.mp hmem
      have hany2 : adj.any (fun p => p.1 = target) = false := by
        rw [← Bool.not_eq_true]
        exact hany
      rw [List.any_eq_false] at hany2
      exact hany2 p hp (by simpa using hpt)
    simp only [List.map_cons, List.map_nil]
    rw [List.nodup_append]
    refine ⟨h, List.nodup_singleton _, ?_⟩
    intro a ha hat
    have : a = target := by simpa using hat
    exact htn (this ▸ ha)

theorem tagsOn_update_mono (st : BuildState) (owner target : Name) (tag : ImportKind)
    (a b : Name) (x : ImportKind) (hx : x ∈ tagsOn st a b) :
    x ∈ tagsOn { st with imports := updateImports st.imports owner target tag } a b := by
  by_cases ha : a = owner
  · subst ha
    unfold tagsOn
    rw [adjOf_updateImports]
    by_cases hb : b = target
    · subst hb
      rw [find?_addTagTo_self]
      unfold tagsOn at hx
      cases hfind : ((adjOf st a).find? (fun p => p.1 = b)).map (fun p => p.2) with
      | none =>
        rw [hfind] at hx
        simp at hx
      | some tags =>
        rw [hfind] at hx
        simp only [Option.getD_some] at hx
        by_cases ht : tag ∈ tags
        · simp only [hfind, if_pos ht, Option.getD_some]
          exact hx
        · simp only [hfind, if_neg ht, Option.getD_some]
          exact List.mem_append_left _ hx
    · rw [find?_addTagTo_other _ _ _ _ hb]
      exact hx
  · unfold tagsOn
    rw [adjOf_updateImports_other st owner target tag a ha]
    exact hx

/-- Every successful `add_import` only rewrites the imports map through
`updateImports` with the tag it was given. -/
theorem add_import_shape {st : BuildState} {owner : Name} {imp : RawImport}
    {tag : ImportKind} {st' : BuildState} (h : add_import st owner imp tag = some st') :
    ∃ target, st' = { st with imports := updateImports st.imports owner target tag } := by
  unfold add_import at h
  cases hres : resolve_module st imp.module with
  | none =>
    rw [hres] at h
    exact Option.noConfusion h
  | some t =>
    rw [hres] at h
    exact ⟨_, (Option.some.inj h).symm⟩

theorem findDynamic_ne_parent (chain : List NodeTag) :
    findDynamic chain ≠ ImportKind.parent := by
  rw [findDynamic_eq_any]
  split
  · intro h
    exact ImportKind.noConfusion h
  · intro h
    exact ImportKind.noConfusion h

theorem find_import_kind_ne_parent (chain : List NodeTag) :
    find_import_kind chain ≠ ImportKind.parent := by
  match chain with
  | NodeTag.ifStmt t :: NodeTag.module :: rest =>
    show (if isTypeCheckingTest t then ImportKind.typing else ImportKind.conditional) ≠ _
    split
    · intro h
      exact ImportKind.noConfusion h
    · intro h
      exact ImportKind.noConfusion h
  | [] => exact findDynamic_ne_parent []
  | [NodeTag.ifStmt t] => exact findDynamic_ne_parent _
  | NodeTag.ifStmt t :: NodeTag.ifStmt t2 :: rest => exact findDynamic_ne_parent _
  | NodeTag.ifStmt t :: NodeTag.functionDef :: rest => exact findDynamic_ne_parent _
  | NodeTag.ifStmt t :: NodeTag.asyncFunctionDef :: rest => exact findDynamic_ne_parent _
  | NodeTag.ifStmt t :: NodeTag.classDef :: rest => exact findDynamic_ne_parent _
  | NodeTag.ifStmt t :: NodeTag.otherNode :: rest => exact findDynamic_ne_parent _
  | NodeTag.module :: rest => exact findDynamic_ne_parent _
  | NodeTag.functionDef :: rest => exact findDynamic_ne_parent _
  | NodeTag.asyncFunctionDef :: rest => exact findDynamic_ne_parent _
  | NodeTag.classDef :: rest => exact findDynamic_ne_parent _
  | NodeTag.otherNode :: rest => exact findDynamic_ne_parent _

theorem foldlM_option_invariant {σ α : Type} (P : σ → Prop) (step : σ → α → Option σ)
    (hstep : ∀ st a st', step st a = some st' → P st → P st') :
    ∀ (l : List α) (st0 st1 : σ), l.foldlM step st0 = some st1 → P st0 → P st1 := by
  intro l
  induction l with
  | nil =>
    intro st0 st1 h hP
    rw [List.foldlM_nil] at h
    exact (Option.some.inj h) ▸ hP
  | cons a rest ih =>
    intro st0 st1 h hP
    rw [List.foldlM_cons] at h
    cases hs : step st0 a with
    | none =>
      rw [hs] at h
      exact Option.noConfusion h
    | some st' =>
      rw [hs] at h
      exact ih st' st1 h (hstep st0 a st' hs hP)

theorem mapM_option_mem {α β : Type} (f : α → Option β) :
    ∀ (l : List α) (out : List β), l.mapM f = some out →
      ∀ y ∈ out, ∃ x ∈ l, f x = some y := by
  intro l
  induction l with
  | nil =>
    intro out h y hy
    rw [List.mapM_nil] at h
    rw [← Option.some.inj h] at hy
    simp at hy
  | cons a rest ih =>
    intro out h y hy
    rw [List.mapM_cons] at h
    cases hfa : f a with
    | none =>
      rw [hfa] at h
      simp at h
    | some b =>
      rw [hfa] at h
      cases hrest : rest.mapM f with
      | none =>
        rw [hrest] at h
        simp at h
      | some bs =>
        rw [hrest] at h
        have h2 : b :: bs = out := by simpa using h
        rw [← h2] at hy
        rcases List.mem_cons.mp hy with h1 | h1
        · exact ⟨a, List.mem_cons_self a rest, h1 ▸ hfa⟩
        · obtain ⟨x, hx, hfx⟩ := ih bs hrest y h1
          exact ⟨x, List.mem_cons_of_mem a hx, hfx⟩

/-- Equation form of `parse`. -/
theorem parse_eq (root : String) (files : List FileIn) :
    parse root files
      = if [root] ∈ (creationPhase root files).modules then
          (sortFiles files).foldlM
            (fun st f =>
              (f.imps.filter (keepImport root)).foldlM
                (fun st' i =>
                  add_import st' (nameOf root f.rel) i (find_import_kind i.chain))
                st)
            (creationPhase root files)
        else none :=
  rfl

/-- The build-state properties behind claim C3, stable under the import
phase: module list unchanged, only parent edges carry the `parent` tag (and
never on the root), the parent tag survives on each non-root module's edge to
its parent, and adjacency keys stay unique. -/
def ParentInv (root : String) (M0 : List Name) (st : BuildState) : Prop :=
  st.modules = M0
  ∧ (∀ m : Name, ∀ p ∈ adjOf st m, ImportKind.parent ∈ p.2 →
      (m ≠ [root] ∧ p.1 = parentName m))
  ∧ (∀ m ∈ M0, m ≠ [root] → ImportKind.parent ∈ tagsOn st m (parentName m))
  ∧ (∀ m : Name, ((adjOf st m).map (fun p => p.1)).Nodup)

theorem ParentInv_add_import (root : String) (M0 : List Name)
    {st : BuildState} {owner : Name} {imp : RawImport} {tag : ImportKind}
    {st' : BuildState} (htag : tag ≠ ImportKind.parent)
    (h : add_import st owner imp tag = some st') (hP : ParentInv root M0 st) :
    ParentInv root M0 st' := by
  obtain ⟨target, rfl⟩ := add_import_shape h
  obtain ⟨hmod, hexcl, hpres, hnodup⟩ := hP
  refine ⟨hmod, ?_, ?_, ?_⟩
  · intro m p hp hparent
    by_cases hm : m = owner
    · subst hm
      rw [adjOf_updateImports st m target tag] at hp
      rcases mem_addTagTo_cases (adjOf st m) target tag hp ImportKind.parent hparent with
        ⟨p0, hp0, hkey, hptag⟩ | heq
      · obtain ⟨hne, hpn⟩ := hexcl m p0 hp0 hptag
        exact ⟨hne, hkey ▸ hpn⟩
      · exact absurd heq.symm htag
    · rw [adjOf_updateImports_other st owner target tag m hm] at hp
      exact hexcl m p hp hparent
  · intro m hm hroot
    exact tagsOn_update_mono st owner target tag m (parentName m) _ (hpres m hm hroot)
  · intro m
    by_cases hm : m = owner
    · subst hm
      rw [adjOf_updateImports st m target tag]
      exact addTagTo_keys_nodup _ _ _ (hnodup m)
    · rw [adjOf_updateImports_other st owner target tag m hm]
      exact hnodup m

theorem ParentInv_creation (root : String) (files : List FileIn)
    (hparts : ∀ f ∈ files, f.rel ≠ [] ∧ "" ∉ f.rel)
    (hinits : ∀ f ∈ files, ∀ k, k ≤ f.rel.dropLast.length →
      ∃ g ∈ files, g.rel = f.rel.dropLast.take k ++ ["__init__.py"]) :
    ParentInv root (creationPhase root files).modules (creationPhase root files) := by
  refine ⟨rfl, ?_, ?_, ?_⟩
  · intro m p hp hparent
    by_cases hm : m ∈ (creationPhase root files).modules
    · by_cases hmr : m = [root]
      · subst hmr
        rw [adjOf_creationPhase_root root files hm] at hp
        simp at hp
      · rw [adjOf_creationPhase_nonroot root files hparts hinits m hm hmr] at hp
        have hpe : p = (parentName m, [ImportKind.parent]) := by simpa using hp
        exact ⟨hmr, by rw [hpe]⟩
    · rw [adjOf_creationPhase_absent root files m hm] at hp
      simp at hp
  · intro m hm hroot
    unfold tagsOn
    rw [adjOf_creationPhase_nonroot root files hparts hinits m hm hroot]
    simp [List.find?_cons]
  · intro m
    by_cases hm : m ∈ (creationPhase root files).modules
    · by_cases hmr : m = [root]
      · subst hmr
        rw [adjOf_creationPhase_root root files hm]
        simp
      · rw [adjOf_creationPhase_nonroot root files hparts hinits m hm hmr]
        simp
    · rw [adjOf_creationPhase_absent root files m hm]
      simp

/-- Equation form of `exportGraph`. -/
theorem exportGraph_eq (st : BuildState) (kwargs : ImportKind → Option EdgeKind)
    (setOrder : List ImportKind → List ImportKind) :
    exportGraph st kwargs setOrder
      = (walkAll st).mapM fun a =>
          ((adjOf st a).mapM fun p =>
            (if hasEdge st (walkAll st) p.1 a then
              (cycle_severity p.2.toFinset (tagsOn st p.1 a).toFinset kwargs).map some
             else some none).map
              fun cyc => (p.1, EdgeMeta.mk (setOrder p.2) cyc)).map
            fun adj => (a, adj) :=
  rfl

/-- C3: after the build, every non-root module has exactly one implicit edge
to its parent tagged `parent` — present already right after module creation,
never added by `add_import` (whose tags come from `find_import_kind`, which
never yields `parent`), and unique since adjacency keys stay distinct; the
root module has no parent-tagged edge; and in the exported graph the edge
`m → parent(m)` has cycle classification `none` unless `parent(m)` also has
an edge back to `m`. -/
theorem parent_edge_spec (root : String) (files : List FileIn)
    (hparts : ∀ f ∈ files, f.rel ≠ [] ∧ "" ∉ f.rel)
    (hinits : ∀ f ∈ files, ∀ k, k ≤ f.rel.dropLast.length →
      ∃ g ∈ files, g.rel = f.rel.dropLast.take k ++ ["__init__.py"])
    (st : BuildState) (hparse : parse root files = some st)
    (kwargs : ImportKind → Option EdgeKind)
    (setOrder : List ImportKind → List ImportKind)
    (out : List (Name × List (Name × EdgeMeta)))
    (hexp : exportGraph st kwargs setOrder = some out) :
    (∀ m ∈ (creationPhase root files).modules, m ≠ [root] →
      adjOf (creationPhase root files) m = [(parentName m, [ImportKind.parent])])
    ∧ (∀ m ∈ st.modules, m ≠ [root] →
        ImportKind.parent ∈ tagsOn st m (parentName m)
        ∧ (∀ p ∈ adjOf st m, ImportKind.parent ∈ p.2 → p.1 = parentName m)
        ∧ ((adjOf st m).map (fun p => p.1)).Nodup)
    ∧ (∀ p ∈ adjOf st [root], ImportKind.parent ∉ p.2)
    ∧ (∀ m ∈ st.modules, m ≠ [root] →
        hasEdge st (walkAll st) (parentName m) m = false →
        ∀ adj meta, (m, adj) ∈ out → (parentName m, meta) ∈ adj →
          meta.cycle = none) := by
  have hinv : ParentInv root (creationPhase root files).modules st := by
    rw [parse_eq] at hparse
    by_cases hr : [root] ∈ (creationPhase root files).modules
    · rw [if_pos hr] at hparse
      refine foldlM_option_invariant
        (ParentInv root (creationPhase root files).modules) _ ?_ _ _ _ hparse
        (ParentInv_creation root files hparts hinits)
      intro s1 f s2 hof hP
      exact foldlM_option_invariant (ParentInv root (creationPhase root files).modules)
        _ (fun s a s' hs hp =>
            ParentInv_add_import root (creationPhase root files).modules
              (find_import_kind_ne_parent a.chain) hs hp)
        _ s1 s2 hof hP
    · rw [if_neg hr] at hparse
      exact Option.noConfusion hparse
  obtain ⟨hmods, hexcl, hpres, hnodup⟩ := hinv
  refine ⟨?_, ?_, ?_, ?_⟩
  · intro m hm hroot
    exact adjOf_creationPhase_nonroot root files hparts hinits m hm hroot
  · intro m hm hroot
    have hm0 : m ∈ (creationPhase root files).modules := hmods ▸ hm
    exact ⟨hpres m hm0 hroot, fun p hp hparent => (hexcl m p hp hparent).2, hnodup m⟩
  · intro p hp hparent
    exact (hexcl [root] p hp hparent).1 rfl
  · intro m hm hroot hnoedge adj meta hout hadj
    rw [exportGraph_eq] at hexp
    obtain ⟨a, _, hfa⟩ := mapM_option_mem _ _ _ hexp (m, adj) hout
    rw [Option.map_eq_some'] at hfa
    obtain ⟨adj0, hinner, heq⟩ := hfa
    injection heq with h1 h2
    rw [h1] at hinner
    rw [← h2] at hadj
    obtain ⟨p, _, hfp⟩ := mapM_option_mem _ _ _ hinner (parentName m, meta) hadj
    rw [Option.map_eq_some'] at hfp
    obtain ⟨cyc, hcyc, heq2⟩ := hfp
    injection heq2 with hk1 hk2
    rw [hk1, hnoedge] at hcyc
    simp only [Bool.false_eq_true, if_false] at hcyc
    rw [← hk2]
    exact (Option.some.inj hcyc).symm

/-- Witness for `parent_edge_spec` on a two-file package with no imports. -/
theorem parent_edge_spec_witness :
    parse "pkg" [(⟨["__init__.py"], []⟩ : FileIn), ⟨["a.py"], []⟩]
        = some (creationPhase "pkg" [(⟨["__init__.py"], []⟩ : FileIn), ⟨["a.py"], []⟩])
    ∧ (∀ p ∈ adjOf (creationPhase "pkg"
          [(⟨["__init__.py"], []⟩ : FileIn), ⟨["a.py"], []⟩]) ["pkg"],
        ImportKind.parent ∉ p.2) :=
  ⟨by decide,
    (parent_edge_spec "pkg" [(⟨["__init__.py"], []⟩ : FileIn), ⟨["a.py"], []⟩]
      (by decide) (by decide)
      (creationPhase "pkg" [(⟨["__init__.py"], []⟩ : FileIn), ⟨["a.py"], []⟩])
      (by decide) (fun _ => none) (fun l => l)
      [(["pkg"], []), (["pkg", "a"], [(["pkg"], ⟨[ImportKind.parent], none⟩)])]
      (by decide)).2.2.1⟩

/-! ## Determinism of the pipeline (claim C9) -/

/-- With pairwise distinct sort keys the sorted file list is determined by the
set of files: any enumeration order produces the same sorted list. -/
theorem sortFiles_eq_of_perm (files₁ files₂ : List FileIn)
    (hperm : files₁.Perm files₂)
    (hkeys : files₁.Pairwise (fun a b => keyChars a ≠ keyChars b)) :
    sortFiles files₁ = sortFiles files₂ := by
  have hp : (sortFiles files₁).Perm (sortFiles files₂) :=
    (sortFiles_perm files₁).trans (hperm.trans (sortFiles_perm files₂).symm)
  have hkeys1 : (sortFiles files₁).Pairwise (fun a b => keyChars a ≠ keyChars b) :=
    ((sortFiles_perm files₁).pairwise_iff (fun h e => h e.symm)).mpr hkeys
  have hkeys2 : (sortFiles files₂).Pairwise (fun a b => keyChars a ≠ keyChars b) :=
    ((sortFiles_perm files₂).pairwise_iff (fun h e => h e.symm)).mpr
      ((hperm.pairwise_iff (fun h e => h e.symm)).mp hkeys)
  have hs1 : List.Sorted fileLt (sortFiles files₁) :=
    ((sortFiles_sorted files₁).and hkeys1).imp
      (fun h => lt_of_le_of_ne h.1 h.2)
  have hs2 : List.Sorted fileLt (sortFiles files₂) :=
    ((sortFiles_sorted files₂).and hkeys2).imp
      (fun h => lt_of_le_of_ne h.1 h.2)
  exact List.eq_of_perm_of_sorted hp hs1 hs2

/-- `parse` reads its input only through `sortFiles`. -/
theorem parse_congr (root : String) (files₁ files₂ : List FileIn)
    (hsort : sortFiles files₁ = sortFiles files₂) :
    parse root files₁ = parse root files₂ := by
  rw [parse_eq, parse_eq]
  unfold creationPhase
  rw [hsort]

/-- One exported edge with its tags list abstracted to the set of its
elements (its order in the program is CPython's `set` iteration order). -/
def normEdge (q : Name × EdgeMeta) : Name × (Finset ImportKind × Option EdgeKind) :=
  (q.1, (q.2.tags.toFinset, q.2.cycle))

/-- The exported mapping with outer and inner key order and cycle values
intact and each tags list abstracted to a set. -/
def normalizeExport (out : List (Name × List (Name × EdgeMeta))) :
    List (Name × List (Name × (Finset ImportKind × Option EdgeKind))) :=
  out.map fun e => (e.1, e.2.map normEdge)

theorem mapM_norm_tags (c : Name × List ImportKind → Option (Option EdgeKind))
    (t : Name × List ImportKind → Name)
    (o₁ o₂ : Name × List ImportKind → List ImportKind)
    (hfin : ∀ p, (o₁ p).toFinset = (o₂ p).toFinset) :
    ∀ adj : List (Name × List ImportKind),
      ((adj.mapM fun p => (c p).map fun cyc => (t p, EdgeMeta.mk (o₁ p) cyc)).map
          (List.map normEdge))
        = ((adj.mapM fun p => (c p).map fun cyc => (t p, EdgeMeta.mk (o₂ p) cyc)).map
          (List.map normEdge)) := by
  intro adj
  induction adj with
  | nil => rfl
  | cons p rest ih =>
    simp only [List.mapM_cons]
    cases hc : c p with
    | none => rfl
    | some cyc =>
      cases hr1 : rest.mapM fun p => (c p).map fun cyc => (t p, EdgeMeta.mk (o₁ p) cyc) with
      | none =>
        cases hr2 : rest.mapM fun p => (c p).map fun cyc => (t p, EdgeMeta.mk (o₂ p) cyc) with
        | none => rfl
        | some bs2 =>
          rw [hr1, hr2] at ih
          simp at ih
      | some bs1 =>
        cases hr2 : rest.mapM fun p => (c p).map fun cyc => (t p, EdgeMeta.mk (o₂ p) cyc) with
        | none =>
          rw [hr1, hr2] at ih
          simp at ih
        | some bs2 =>
          have hbs : bs1.map normEdge = bs2.map normEdge := by
            rw [hr1, hr2] at ih
            simpa using ih
          simp [normEdge, hfin p, hbs]

theorem mapM_norm_outer (g₁ g₂ : Name → Option (List (Name × EdgeMeta)))
    (hg : ∀ a, (g₁ a).map (List.map normEdge) = (g₂ a).map (List.map normEdge)) :
    ∀ names : List Name,
      ((names.mapM fun a => (g₁ a).map fun adj => (a, adj)).map normalizeExport)
        = ((names.mapM fun a => (g₂ a).map fun adj => (a, adj)).map normalizeExport) := by
  intro names
  induction names with
  | nil => rfl
  | cons a rest ih =>
    simp only [List.mapM_cons]
    cases h1 : g₁ a with
    | none =>
      cases h2 : g₂ a with
      | none => rfl
      | some bs2 =>
        have h3 := hg a
        rw [h1, h2] at h3
        simp at h3
    | some bs1 =>
      cases h2 : g₂ a with
      | none =>
        have h3 := hg a
        rw [h1, h2] at h3
        simp at h3
      | some bs2 =>
        have hbs : bs1.map normEdge = bs2.map normEdge := by
          have h3 := hg a
          rw [h1, h2] at h3
          simpa using h3
        cases hr1 : rest.mapM fun a => (g₁ a).map fun adj => (a, adj) with
        | none =>
          cases hr2 : rest.mapM fun a => (g₂ a).map fun adj => (a, adj) with
          | none => rfl
          | some xs2 =>
            rw [hr1, hr2] at ih
            simp at ih
        | some xs1 =>
          cases hr2 : rest.mapM fun a => (g₂ a).map fun adj => (a, adj) with
          | none =>
            rw [hr1, hr2] at ih
            simp at ih
          | some xs2 =>
            have hxs : xs1.map (fun e => (e.1, e.2.map normEdge))
                = xs2.map (fun e => (e.1, e.2.map normEdge)) := by
              rw [hr1, hr2] at ih
              simpa [normalizeExport] using ih
            simp [normalizeExport, hbs, hxs]

/-- The exported graph is determined by the build state up to the order each
tag set is materialized in: any two materialization orders that enumerate the
same elements give the same normalized export. -/
theorem exportGraph_norm (st : BuildState) (kwargs : ImportKind → Option EdgeKind)
    (o₁ o₂ : List ImportKind → List ImportKind)
    (h₁ : ∀ l, (o₁ l).Perm l) (h₂ : ∀ l, (o₂ l).Perm l) :
    (exportGraph st kwargs o₁).map normalizeExport
      = (exportGraph st kwargs o₂).map normalizeExport := by
  rw [exportGraph_eq, exportGraph_eq]
  exact mapM_norm_outer
    (fun a => (adjOf st a).mapM fun p =>
      (if hasEdge st (walkAll st) p.1 a then
        (cycle_severity p.2.toFinset (tagsOn st p.1 a).toFinset kwargs).map some
       else some none).map fun cyc => (p.1, EdgeMeta.mk (o₁ p.2) cyc))
    (fun a => (adjOf st a).mapM fun p =>
      (if hasEdge st (walkAll st) p.1 a then
        (cycle_severity p.2.toFinset (tagsOn st p.1 a).toFinset kwargs).map some
       else some none).map fun cyc => (p.1, EdgeMeta.mk (o₂ p.2) cyc))
    (fun a => mapM_norm_tags
      (fun p => if hasEdge st (walkAll st) p.1 a then
        (cycle_severity p.2.toFinset (tagsOn st p.1 a).toFinset kwargs).map some
       else some none)
      (fun p => p.1) (fun p => o₁ p.2) (fun p => o₂ p.2)
      (fun p => (List.toFinset_eq_of_perm _ _ (h₁ p.2)).trans
        (List.toFinset_eq_of_perm _ _ (h₂ p.2)).symm)
      (adjOf st a))
    (walkAll st)

/-- C9 (amended): the pipeline is deterministic up to the order of each
edge's exported tags list.  Two runs over the same tree — even with the
source files enumerated in different orders, provided their sort keys are
pairwise distinct — produce exported mappings with identical outer key order,
identical inner key order and identical cycle values, and with each edge's
tags list equal as a set; the tags list order itself comes from iterating a
Python `set`, whose order CPython leaves unspecified, so any two
materialization orders of those sets are possible across runs. -/
theorem run_deterministic (root : String) (files₁ files₂ : List FileIn)
    (kwargs : ImportKind → Option EdgeKind)
    (setOrder₁ setOrder₂ : List ImportKind → List ImportKind)
    (h₁ : ∀ l, (setOrder₁ l).Perm l) (h₂ : ∀ l, (setOrder₂ l).Perm l)
    (hperm : files₁.Perm files₂)
    (hkeys : files₁.Pairwise (fun a b => keyChars a ≠ keyChars b)) :
    (runPipeline root files₁ kwargs setOrder₁).map normalizeExport
      = (runPipeline root files₂ kwargs setOrder₂).map normalizeExport := by
  have hparse : parse root files₁ = parse root files₂ :=
    parse_congr root files₁ files₂ (sortFiles_eq_of_perm files₁ files₂ hperm hkeys)
  unfold runPipeline
  rw [hparse]
  cases hp : parse root files₂ with
  | none => rfl
  | some st =>
    exact exportGraph_norm st kwargs setOrder₁ setOrder₂ h₁ h₂

/-- Witness for C9 (amended) on a two-file package, with the files permuted
and the two runs materializing tag sets in opposite orders. -/
theorem run_deterministic_witness :
    ([⟨["__init__.py"], []⟩,
      ⟨["a.py"], [⟨["foo"], none, [NodeTag.module]⟩]⟩] : List FileIn).Perm
        [⟨["a.py"], [⟨["foo"], none, [NodeTag.module]⟩]⟩, ⟨["__init__.py"], []⟩]
    ∧ (runPipeline "foo"
        [⟨["__init__.py"], []⟩, ⟨["a.py"], [⟨["foo"], none, [NodeTag.module]⟩]⟩]
        (fun _ => none) (fun l => l)).map normalizeExport
      = (runPipeline "foo"
          [⟨["a.py"], [⟨["foo"], none, [NodeTag.module]⟩]⟩, ⟨["__init__.py"], []⟩]
          (fun _ => none) List.reverse).map normalizeExport :=
  ⟨by decide,
   run_deterministic "foo"
     [⟨["__init__.py"], []⟩, ⟨["a.py"], [⟨["foo"], none, [NodeTag.module]⟩]⟩]
     [⟨["a.py"], [⟨["foo"], none, [NodeTag.module]⟩]⟩, ⟨["__init__.py"], []⟩]
     (fun _ => none) (fun l => l) List.reverse
     (fun l => List.Perm.refl l) (fun l => List.reverse_perm l)
     (by decide) (by decide)⟩

/-- C9 as stated is refuted: on a two-file package whose module `foo.a`
imports its own parent `foo` (tag set `{parent, vanilla}` on that edge), two
runs whose `set` iteration orders differ — both enumerate exactly the set's
elements — export different mappings: the tags lists come out in different
orders. -/
theorem run_tags_order_counterexample :
    (List.reverse [ImportKind.parent, ImportKind.vanilla]).Perm
        [ImportKind.parent, ImportKind.vanilla]
    ∧ runPipeline "foo"
        [⟨["__init__.py"], []⟩, ⟨["a.py"], [⟨["foo"], none, [NodeTag.module]⟩]⟩]
        (fun _ => none) (fun l => l)
      ≠ runPipeline "foo"
          [⟨["__init__.py"], []⟩, ⟨["a.py"], [⟨["foo"], none, [NodeTag.module]⟩]⟩]
          (fun _ => none) List.reverse := by
  refine ⟨by decide, ?_⟩
  decide

end Byecycle
